import Mathlib

/- Shallow embedding of the Sudoku engine (the repository's `lib/sudoku.ts`).

A board cell holds `none` when empty (the source uses `null`, or `0` inside the
filler, for empty cells; the two encodings are interconverted by the source and
are observationally identical, since `isValid` only ever compares a cell with a
digit `1..9`) and `some v` for a placed value `v`.

Ambient randomness (the `shuffle` calls, which produce uniformly shuffled
permutations of their input) is modelled by explicit parameters: `rand k` is
the list produced by the k-th shuffle of the digit list `[1..9]` inside
`fillBoard`, and `cellOrder` is the shuffled list of the 81 coordinates used by
the carving loop of `generatePuzzle`.  The recursive searches are written with
an explicit fuel argument; fuel equal to the number of empty cells suffices
(the source recursion always fills one cell before recursing), and the
top-level entry points use fuel 81. -/

set_option maxRecDepth 40000

abbrev Board := Fin 9 → Fin 9 → Option ℕ

abbrev TGrid := Fin 9 → Fin 9 → Fin 9

inductive Difficulty
  | easy
  | medium
  | hard
  | expert
deriving DecidableEq

def DIFFICULTY_CLUES : Difficulty → ℕ
  | .easy => 40
  | .medium => 32
  | .hard => 26
  | .expert => 22

def setCell (b : Board) (r c : Fin 9) (v : Option ℕ) : Board :=
  fun r2 c2 => if r2 = r ∧ c2 = c then v else b r2 c2

def emptyBoard : Board := fun _ _ => none

/- The row-major list of all 81 coordinates, as scanned by the nested
`for row / for col` loops of the source. -/
def cellsRM : List (Fin 9 × Fin 9) :=
  (List.finRange 9).flatMap fun r => (List.finRange 9).map fun c => (r, c)

def firstEmptyCell (b : Board) : Option (Fin 9 × Fin 9) :=
  cellsRM.find? fun p => b p.1 p.2 == none

/- `boxCellR row dr` is the row index `Math.floor(row / 3) * 3 + dr` scanned by
the box loop of `isValid` (and likewise for columns). -/
def boxCellR (i : Fin 9) (d : Fin 3) : Fin 9 :=
  ⟨(i.val / 3) * 3 + d.val, by have h1 := i.isLt; have h2 := d.isLt; omega⟩

/- Fill-time validity check (`isValid` in the source): `num` occurs nowhere in
the row, the column, or the 3x3 box of the target cell. -/
def isValid (b : Board) (row col : Fin 9) (num : ℕ) : Bool :=
  ((List.finRange 9).all fun c => b row c != some num) &&
  ((List.finRange 9).all fun r => b r col != some num) &&
  ((List.finRange 3).all fun dr => (List.finRange 3).all fun dc =>
    b (boxCellR row dr) (boxCellR col dc) != some num)

/- Edit-time validity check (`isValidPlacement` in the source): the scan skips
the target cell itself. -/
def isValidPlacement (b : Board) (row col : Fin 9) (num : ℕ) : Bool :=
  ((List.finRange 9).all fun c => decide (c = col) || (b row c != some num)) &&
  ((List.finRange 9).all fun r => decide (r = row) || (b r col != some num)) &&
  ((List.finRange 3).all fun dr => (List.finRange 3).all fun dc =>
    (decide (boxCellR row dr = row) && decide (boxCellR col dc = col)) ||
      (b (boxCellR row dr) (boxCellR col dc) != some num))

/- The digit loop of `countSolutions`: for each candidate `num` in order, if it
is fill-time valid, place it on an independent copy, add the recursive count
with budget `limit - count`, and return as soon as the running count reaches
`limit`.  The recursive call is abstracted as `f`. -/
def csNums (f : Board → ℕ → ℕ) (b : Board) (r c : Fin 9) (limit : ℕ) :
    List ℕ → ℕ → ℕ
  | [], count => count
  | num :: rest, count =>
    if isValid b r c num then
      let count2 := count + f (setCell b r c (some num)) (limit - count)
      if limit ≤ count2 then count2 else csNums f b r c limit rest count2
    else csNums f b r c limit rest count

def countSolutionsF : ℕ → Board → ℕ → ℕ
  | 0 => fun b _ =>
    match firstEmptyCell b with
    | none => 1
    | some _ => 0
  | fuel + 1 => fun b limit =>
    match firstEmptyCell b with
    | none => 1
    | some rc => csNums (countSolutionsF fuel) b rc.1 rc.2 limit
        [1, 2, 3, 4, 5, 6, 7, 8, 9] 0

def countSolutions (b : Board) (limit : ℕ := 2) : ℕ :=
  countSolutionsF 81 b limit

/- The digit loop of the internal `solve` of `solvePuzzle`: deterministic
ascending candidate order; on recursive failure the cell is cleared again,
which in this functional rendering is just continuing from the unchanged
board `b`. -/
def tryNums (f : Board → Option Board) (b : Board) (r c : Fin 9) :
    List ℕ → Option Board
  | [] => none
  | num :: rest =>
    if isValid b r c num then
      match f (setCell b r c (some num)) with
      | some out => some out
      | none => tryNums f b r c rest
    else tryNums f b r c rest

def solveF : ℕ → Board → Option Board
  | 0 => fun b =>
    match firstEmptyCell b with
    | none => some b
    | some _ => none
  | fuel + 1 => fun b =>
    match firstEmptyCell b with
    | none => some b
    | some rc => tryNums (solveF fuel) b rc.1 rc.2 [1, 2, 3, 4, 5, 6, 7, 8, 9]

/- `solvePuzzle` works on a copy of the caller's grid; the copy is implicit
here since boards are values. -/
def solvePuzzle (b : Board) : Option Board :=
  solveF 81 b

/- The digit loop of `fillBoard`: candidates come from one shuffled list; the
result carries the board, the success flag, and the next unused index into the
random stream.  A failed recursive call restores the board it was given
(`board[row][col] = 0` in the source), so the loop continues from `b`. -/
def fillTry (f : Board → ℕ → Board × Bool × ℕ) (b : Board) (r c : Fin 9) :
    List ℕ → ℕ → Board × Bool × ℕ
  | [], k => (b, false, k)
  | num :: rest, k =>
    if isValid b r c num then
      match f (setCell b r c (some num)) k with
      | (out, true, k2) => (out, true, k2)
      | (_, false, k2) => fillTry f b r c rest k2
    else fillTry f b r c rest k

def fillBoardF (rand : ℕ → List ℕ) : ℕ → Board → ℕ → Board × Bool × ℕ
  | 0 => fun b k =>
    match firstEmptyCell b with
    | none => (b, true, k)
    | some _ => (b, false, k)
  | fuel + 1 => fun b k =>
    match firstEmptyCell b with
    | none => (b, true, k)
    | some rc => fillTry (fillBoardF rand fuel) b rc.1 rc.2 (rand k) (k + 1)

/- The carving loop of `generatePuzzle`: iterate the shuffled coordinate list,
stop once `target` removals are reached; tentatively blank a cell and keep the
removal only when the bounded counter still reports a unique solution. -/
def carve : List (Fin 9 × Fin 9) → ℕ → Board → ℕ → Board
  | [], _, puzzle, _ => puzzle
  | p :: rest, target, puzzle, removed =>
    if target ≤ removed then puzzle
    else
      let tentative := setCell puzzle p.1 p.2 none
      if countSolutions tentative = 1 then carve rest target tentative (removed + 1)
      else carve rest target puzzle removed

def generatePuzzle (difficulty : Difficulty) (rand : ℕ → List ℕ)
    (cellOrder : List (Fin 9 × Fin 9)) : Board × Board :=
  let fillRes := fillBoardF rand 81 emptyBoard 0
  let solution := fillRes.1
  let target := 81 - DIFFICULTY_CLUES difficulty
  let puzzle := carve cellOrder target solution 0
  (puzzle, solution)

/- One cell of the `getConflicts` scan: a filled cell is a conflict when the
edit-time check fails. -/
def cellConflict (b : Board) (p : Fin 9 × Fin 9) : Bool :=
  match b p.1 p.2 with
  | none => false
  | some v => !(isValidPlacement b p.1 p.2 v)

def getConflicts (b : Board) : Finset (Fin 9 × Fin 9) :=
  Finset.univ.filter fun p => cellConflict b p = true

def isBoardComplete (b : Board) (solution : Board) : Bool :=
  (List.finRange 9).all fun r => (List.finRange 9).all fun c =>
    b r c == solution r c

/- ---------------------------------------------------------------------------
Semantic notions used to state the claims.  A total grid `t : TGrid` encodes a
completely filled board; the entry `t r c : Fin 9` encodes the digit
`t r c + 1`, so `boardOf t` is the corresponding `Board`. -/

def boardOf (t : TGrid) : Board :=
  fun r c => some ((t r c).val + 1)

/- Two distinct coordinates in the same row, the same column, or the same
grid-aligned 3x3 box constrain each other. -/
def sameUnit (p q : Fin 9 × Fin 9) : Prop :=
  p.1 = q.1 ∨ p.2 = q.2 ∨
    (p.1.val / 3 = q.1.val / 3 ∧ p.2.val / 3 = q.2.val / 3)

instance (p q : Fin 9 × Fin 9) : Decidable (sameUnit p q) := by
  unfold sameUnit; infer_instance

/- `t` agrees with every filled cell of `b`. -/
def Completes (b : Board) (t : TGrid) : Prop :=
  ∀ p : Fin 9 × Fin 9, b p.1 p.2 = none ∨ b p.1 p.2 = some ((t p.1 p.2).val + 1)

instance (b : Board) (t : TGrid) : Decidable (Completes b t) := by
  unfold Completes; infer_instance

/- A valid Solution: every row, every column and every box is a permutation of
the nine digits. -/
def isSolution (t : TGrid) : Prop :=
  (∀ r : Fin 9, Function.Bijective fun c => t r c) ∧
  (∀ c : Fin 9, Function.Bijective fun r => t r c) ∧
  (∀ br : Fin 3, ∀ bc : Fin 3, Function.Bijective fun d : Fin 3 × Fin 3 =>
    t ⟨br.val * 3 + d.1.val, by have h1 := br.isLt; have h2 := d.1.isLt; omega⟩
      ⟨bc.val * 3 + d.2.val, by have h1 := bc.isLt; have h2 := d.2.isLt; omega⟩)

instance (t : TGrid) : Decidable (isSolution t) := by
  unfold isSolution; infer_instance

/- All same-unit pairs of cells of `t` hold distinct digits. -/
def allDistinct (t : TGrid) : Prop :=
  ∀ p q : Fin 9 × Fin 9, p ≠ q → sameUnit p q → t p.1 p.2 ≠ t q.1 q.2

instance (t : TGrid) : Decidable (allDistinct t) := by
  unfold allDistinct; infer_instance

/- The exact semantics of the backtracking searches on an arbitrary input
board: a total grid `t` is reached by the search from `b` exactly when it
agrees with the filled cells of `b` and no same-unit pair involving at least
one originally-empty cell repeats a digit (pairs of two original clues are
never re-checked by the search). -/
def QuasiOK (b : Board) (t : TGrid) : Prop :=
  ∀ p q : Fin 9 × Fin 9, p ≠ q → sameUnit p q →
    b p.1 p.2 = none ∨ b q.1 q.2 = none → t p.1 p.2 ≠ t q.1 q.2

instance (b : Board) (t : TGrid) : Decidable (QuasiOK b t) := by
  unfold QuasiOK; infer_instance

def Quasi (b : Board) (t : TGrid) : Prop :=
  Completes b t ∧ QuasiOK b t

instance (b : Board) (t : TGrid) : Decidable (Quasi b t) := by
  unfold Quasi; infer_instance

/- Well-formed input boards: every filled cell holds a digit 1..9. -/
def CellOK : Option ℕ → Prop
  | none => True
  | some v => 1 ≤ v ∧ v ≤ 9

instance (o : Option ℕ) : Decidable (CellOK o) := by
  cases o with
  | none => exact .isTrue trivial
  | some v => exact inferInstanceAs (Decidable (1 ≤ v ∧ v ≤ 9))

def WellFormed (b : Board) : Prop :=
  ∀ r c : Fin 9, CellOK (b r c)

instance (b : Board) : Decidable (WellFormed b) := by
  unfold WellFormed; infer_instance

/- No two distinct filled cells of the same unit hold the same value. -/
def Consistent (b : Board) : Prop :=
  ∀ p q : Fin 9 × Fin 9, p ≠ q → sameUnit p q →
    b p.1 p.2 = none ∨ b p.1 p.2 ≠ b q.1 q.2

instance (b : Board) : Decidable (Consistent b) := by
  unfold Consistent; infer_instance

/- The grids reached by the search from `b`, and the genuine valid completions
of `b`; for consistent boards the two coincide. -/
def Qset (b : Board) : Finset TGrid :=
  Finset.univ.filter fun t => Quasi b t

def VC (b : Board) : Finset TGrid :=
  Finset.univ.filter fun t => Completes b t ∧ isSolution t

def numCompletions (b : Board) : ℕ :=
  (VC b).card

def numEmpty (b : Board) : ℕ :=
  (Finset.univ.filter fun p : Fin 9 × Fin 9 => b p.1 p.2 = none).card

def numFilled (b : Board) : ℕ :=
  (Finset.univ.filter fun p : Fin 9 × Fin 9 => b p.1 p.2 ≠ none).card

/- ---------------------------------------------------------------------------
Basic lemmas about the board primitives. -/

theorem setCell_same (b : Board) (r c : Fin 9) (v : Option ℕ) :
    setCell b r c v r c = v := by
  simp [setCell]

theorem setCell_other (b : Board) (r c : Fin 9) (v : Option ℕ)
    (r2 c2 : Fin 9) (h : ¬(r2 = r ∧ c2 = c)) :
    setCell b r c v r2 c2 = b r2 c2 := by
  simp [setCell, h]

theorem mem_cellsRM (p : Fin 9 × Fin 9) : p ∈ cellsRM := by
  rcases p with ⟨r, c⟩
  simp only [cellsRM, List.mem_flatMap, List.mem_map]
  exact ⟨r, List.mem_finRange r, c, List.mem_finRange c, rfl⟩

theorem firstEmptyCell_none (b : Board) (h : firstEmptyCell b = none) :
    ∀ p : Fin 9 × Fin 9, b p.1 p.2 ≠ none := by
  intro p
  have h2 := List.find?_eq_none.mp h p (mem_cellsRM p)
  simpa using h2

theorem firstEmptyCell_some (b : Board) (rc : Fin 9 × Fin 9)
    (h : firstEmptyCell b = some rc) : b rc.1 rc.2 = none := by
  have h2 := List.find?_some h
  simpa using h2

theorem numEmpty_le (b : Board) : numEmpty b ≤ 81 := by
  have h := Finset.card_filter_le
    (Finset.univ : Finset (Fin 9 × Fin 9)) (fun p => b p.1 p.2 = none)
  simpa using h

theorem numEmpty_pos (b : Board) (p : Fin 9 × Fin 9) (h : b p.1 p.2 = none) :
    0 < numEmpty b := by
  apply Finset.card_pos.mpr
  exact ⟨p, Finset.mem_filter.mpr ⟨Finset.mem_univ p, h⟩⟩

theorem numEmpty_setCell (b : Board) (r c : Fin 9) (v : ℕ)
    (h : b r c = none) :
    numEmpty (setCell b r c (some v)) + 1 = numEmpty b := by
  unfold numEmpty
  have key : (Finset.univ.filter
      fun p : Fin 9 × Fin 9 => setCell b r c (some v) p.1 p.2 = none)
      = (Finset.univ.filter fun p : Fin 9 × Fin 9 => b p.1 p.2 = none).erase (r, c) := by
    ext p
    simp only [Finset.mem_filter, Finset.mem_univ, true_and, Finset.mem_erase]
    constructor
    · intro hp
      by_cases hpc : p = (r, c)
      · rw [hpc] at hp; rw [setCell_same] at hp; exact absurd hp (by simp)
      · refine ⟨hpc, ?_⟩
        rw [← hp]
        symm
        apply setCell_other
        intro ⟨h1, h2⟩
        exact hpc (Prod.ext h1 h2)
    · intro ⟨hpc, hp⟩
      rw [setCell_other b r c _ p.1 p.2 ?_]
      · exact hp
      · intro ⟨h1, h2⟩
        exact hpc (Prod.ext h1 h2)
  rw [key, Finset.card_erase_of_mem]
  · have hpos : 0 < numEmpty b := numEmpty_pos b (r, c) h
    unfold numEmpty at hpos
    omega
  · exact Finset.mem_filter.mpr ⟨Finset.mem_univ _, h⟩

theorem numEmpty_eq_zero (b : Board) (h : ∀ p : Fin 9 × Fin 9, b p.1 p.2 ≠ none) :
    numEmpty b = 0 := by
  unfold numEmpty
  apply Finset.card_eq_zero.mpr
  apply Finset.filter_false_of_mem
  intro p _
  exact h p

theorem firstEmptyCell_none_of_zero (b : Board) (h : numEmpty b = 0) :
    firstEmptyCell b = none := by
  rcases h2 : firstEmptyCell b with _ | rc
  · rfl
  · exfalso
    have h3 := firstEmptyCell_some b rc h2
    have h4 := numEmpty_pos b rc h3
    omega

theorem sameUnit_symm (p q : Fin 9 × Fin 9) (h : sameUnit p q) : sameUnit q p := by
  rcases h with h | h | ⟨h1, h2⟩
  · exact Or.inl h.symm
  · exact Or.inr (Or.inl h.symm)
  · exact Or.inr (Or.inr ⟨h1.symm, h2.symm⟩)

theorem isValid_iff (b : Board) (row col : Fin 9) (num : ℕ) :
    isValid b row col num = true ↔
      ∀ p : Fin 9 × Fin 9, sameUnit p (row, col) → b p.1 p.2 ≠ some num := by
  unfold isValid
  simp only [Bool.and_eq_true, List.all_eq_true, bne_iff_ne, ne_eq]
  constructor
  · rintro ⟨⟨hrow, hcol⟩, hbox⟩ p hp hv
    rcases hp with h1 | h2 | ⟨h3, h4⟩
    · have h1b : p.1 = row := h1
      exact hrow p.2 (List.mem_finRange _) (h1b ▸ hv)
    · have h2b : p.2 = col := h2
      exact hcol p.1 (List.mem_finRange _) (h2b ▸ hv)
    · have hp1 := p.1.isLt
      have hp2 := p.2.isLt
      have hdr : p.1.val - (row.val / 3) * 3 < 3 := by
        simp only at h3
        omega
      have hdc : p.2.val - (col.val / 3) * 3 < 3 := by
        simp only at h4
        omega
      have e1 : boxCellR row ⟨p.1.val - (row.val / 3) * 3, hdr⟩ = p.1 := by
        apply Fin.ext
        show (row.val / 3) * 3 + (p.1.val - (row.val / 3) * 3) = p.1.val
        simp only at h3
        omega
      have e2 : boxCellR col ⟨p.2.val - (col.val / 3) * 3, hdc⟩ = p.2 := by
        apply Fin.ext
        show (col.val / 3) * 3 + (p.2.val - (col.val / 3) * 3) = p.2.val
        simp only at h4
        omega
      have h5 := hbox ⟨p.1.val - (row.val / 3) * 3, hdr⟩ (List.mem_finRange _)
          ⟨p.2.val - (col.val / 3) * 3, hdc⟩ (List.mem_finRange _)
      rw [e1, e2] at h5
      exact h5 hv
  · intro h
    refine ⟨⟨fun c2 _ => h (row, c2) (Or.inl rfl), fun r2 _ => h (r2, col) (Or.inr (Or.inl rfl))⟩,
      fun dr _ dc _ => h (boxCellR row dr, boxCellR col dc) (Or.inr (Or.inr ⟨?_, ?_⟩))⟩
    · show ((row.val / 3) * 3 + dr.val) / 3 = row.val / 3
      have h1 := dr.isLt
      omega
    · show ((col.val / 3) * 3 + dc.val) / 3 = col.val / 3
      have h1 := dc.isLt
      omega

theorem isValidPlacement_iff (b : Board) (row col : Fin 9) (num : ℕ) :
    isValidPlacement b row col num = true ↔
      ∀ p : Fin 9 × Fin 9, p ≠ (row, col) → sameUnit p (row, col) →
        b p.1 p.2 ≠ some num := by
  unfold isValidPlacement
  simp only [Bool.and_eq_true, List.all_eq_true, Bool.or_eq_true, bne_iff_ne,
    decide_eq_true_eq, ne_eq]
  constructor
  · rintro ⟨⟨hrow, hcol⟩, hbox⟩ p hne hp hv
    rcases hp with h1 | h2 | ⟨h3, h4⟩
    · rcases hrow p.2 (List.mem_finRange _) with h5 | h5
      · exact hne (Prod.ext h1 h5)
      · have h1b : p.1 = row := h1
        exact h5 (h1b ▸ hv)
    · rcases hcol p.1 (List.mem_finRange _) with h5 | h5
      · exact hne (Prod.ext h5 h2)
      · have h2b : p.2 = col := h2
        exact h5 (h2b ▸ hv)
    · have hp1 := p.1.isLt
      have hp2 := p.2.isLt
      have hdr : p.1.val - (row.val / 3) * 3 < 3 := by
        simp only at h3
        omega
      have hdc : p.2.val - (col.val / 3) * 3 < 3 := by
        simp only at h4
        omega
      have e1 : boxCellR row ⟨p.1.val - (row.val / 3) * 3, hdr⟩ = p.1 := by
        apply Fin.ext
        show (row.val / 3) * 3 + (p.1.val - (row.val / 3) * 3) = p.1.val
        simp only at h3
        omega
      have e2 : boxCellR col ⟨p.2.val - (col.val / 3) * 3, hdc⟩ = p.2 := by
        apply Fin.ext
        show (col.val / 3) * 3 + (p.2.val - (col.val / 3) * 3) = p.2.val
        simp only at h4
        omega
      have h5 := hbox ⟨p.1.val - (row.val / 3) * 3, hdr⟩ (List.mem_finRange _)
          ⟨p.2.val - (col.val / 3) * 3, hdc⟩ (List.mem_finRange _)
      rw [e1, e2] at h5
      rcases h5 with ⟨h6, h7⟩ | h5
      · exact hne (Prod.ext h6 h7)
      · exact h5 hv
  · intro h
    refine ⟨⟨fun c2 _ => ?_, fun r2 _ => ?_⟩, fun dr _ dc _ => ?_⟩
    · by_cases hc : c2 = col
      · exact Or.inl hc
      · refine Or.inr (h (row, c2) ?_ (Or.inl rfl))
        intro he
        exact hc (congrArg Prod.snd he)
    · by_cases hr : r2 = row
      · exact Or.inl hr
      · refine Or.inr (h (r2, col) ?_ (Or.inr (Or.inl rfl)))
        intro he
        exact hr (congrArg Prod.fst he)
    · by_cases hrc : boxCellR row dr = row ∧ boxCellR col dc = col
      · exact Or.inl hrc
      · refine Or.inr (h (boxCellR row dr, boxCellR col dc) ?_ (Or.inr (Or.inr ⟨?_, ?_⟩)))
        · intro he
          exact hrc ⟨congrArg Prod.fst he, congrArg Prod.snd he⟩
        · show ((row.val / 3) * 3 + dr.val) / 3 = row.val / 3
          have h1 := dr.isLt
          omega
        · show ((col.val / 3) * 3 + dc.val) / 3 = col.val / 3
          have h1 := dc.isLt
          omega

/- ---------------------------------------------------------------------------
Lemmas about the semantic notions. -/

theorem allDistinct_of_isSolution (t : TGrid) (h : isSolution t) : allDistinct t := by
  obtain ⟨hrow, hcol, hbox⟩ := h
  intro p q hne hsu heq
  rcases hsu with h1 | h2 | ⟨h3, h4⟩
  · rw [← h1] at heq
    have h5 : p.2 = q.2 := (hrow p.1).injective heq
    exact hne (Prod.ext h1 h5)
  · rw [← h2] at heq
    have h5 : p.1 = q.1 := (hcol p.2).injective heq
    exact hne (Prod.ext h5 h2)
  · have hp1 := p.1.isLt
    have hp2 := p.2.isLt
    have hq1 := q.1.isLt
    have hq2 := q.2.isLt
    have hbr : p.1.val / 3 < 3 := by omega
    have hbc : p.2.val / 3 < 3 := by omega
    have hinj := (hbox ⟨p.1.val / 3, hbr⟩ ⟨p.2.val / 3, hbc⟩).injective
    have hd : ((⟨p.1.val % 3, by omega⟩ : Fin 3), (⟨p.2.val % 3, by omega⟩ : Fin 3))
        = ((⟨q.1.val % 3, by omega⟩ : Fin 3), (⟨q.2.val % 3, by omega⟩ : Fin 3)) := by
      apply hinj
      simp only
      convert heq using 2
      · apply Fin.ext
        show (p.1.val / 3) * 3 + p.1.val % 3 = p.1.val
        omega
      · apply Fin.ext
        show (p.2.val / 3) * 3 + p.2.val % 3 = p.2.val
        omega
      · apply Fin.ext
        show (p.1.val / 3) * 3 + q.1.val % 3 = q.1.val
        omega
      · apply Fin.ext
        show (p.2.val / 3) * 3 + q.2.val % 3 = q.2.val
        omega
    have h6 : p.1.val % 3 = q.1.val % 3 :=
      congrArg (fun x : Fin 3 × Fin 3 => x.1.val) hd
    have h7 : p.2.val % 3 = q.2.val % 3 :=
      congrArg (fun x : Fin 3 × Fin 3 => x.2.val) hd
    exact hne (Prod.ext (Fin.ext (by omega)) (Fin.ext (by omega)))

theorem isSolution_of_allDistinct (t : TGrid) (h : allDistinct t) : isSolution t := by
  refine ⟨fun r => ?_, fun c => ?_, fun br bc => ?_⟩
  · apply Finite.injective_iff_bijective.mp
    intro c1 c2 h12
    by_contra hne
    exact h (r, c1) (r, c2) (fun he => hne (congrArg Prod.snd he)) (Or.inl rfl) h12
  · apply Finite.injective_iff_bijective.mp
    intro r1 r2 h12
    by_contra hne
    exact h (r1, c) (r2, c) (fun he => hne (congrArg Prod.fst he)) (Or.inr (Or.inl rfl)) h12
  · rw [Fintype.bijective_iff_injective_and_card]
    refine ⟨?_, by simp⟩
    intro d1 d2 h12
    by_contra hne
    have hb1 := br.isLt
    have hb2 := bc.isLt
    have hd11 := d1.1.isLt
    have hd12 := d1.2.isLt
    have hd21 := d2.1.isLt
    have hd22 := d2.2.isLt
    refine h (⟨br.val * 3 + d1.1.val, by omega⟩, ⟨bc.val * 3 + d1.2.val, by omega⟩)
      (⟨br.val * 3 + d2.1.val, by omega⟩, ⟨bc.val * 3 + d2.2.val, by omega⟩)
      ?_ (Or.inr (Or.inr ⟨?_, ?_⟩)) h12
    · intro he
      have e1 : br.val * 3 + d1.1.val = br.val * 3 + d2.1.val :=
        congrArg (fun x : Fin 9 × Fin 9 => x.1.val) he
      have e2 : bc.val * 3 + d1.2.val = bc.val * 3 + d2.2.val :=
        congrArg (fun x : Fin 9 × Fin 9 => x.2.val) he
      exact hne (Prod.ext (Fin.ext (by omega)) (Fin.ext (by omega)))
    · show (br.val * 3 + d1.1.val) / 3 = (br.val * 3 + d2.1.val) / 3
      omega
    · show (bc.val * 3 + d1.2.val) / 3 = (bc.val * 3 + d2.2.val) / 3
      omega

theorem completes_some (b : Board) (t : TGrid) (h : Completes b t)
    (p : Fin 9 × Fin 9) (v : ℕ) (hv : b p.1 p.2 = some v) :
    v = (t p.1 p.2).val + 1 := by
  rcases h p with h1 | h1
  · rw [hv] at h1; cases h1
  · rw [hv] at h1; exact (Option.some.injEq _ _).mp h1

theorem wellFormed_of_completes (b : Board) (t : TGrid) (h : Completes b t) :
    WellFormed b := by
  intro r c
  rcases h (r, c) with h1 | h1
  · rw [h1]; trivial
  · rw [h1]
    have := (t r c).isLt
    exact ⟨by omega, by omega⟩

theorem consistent_of_completes (b : Board) (t : TGrid) (h : Completes b t)
    (hd : allDistinct t) : Consistent b := by
  intro p q hne hsu
  rcases h p with h1 | h1
  · exact Or.inl h1
  · refine Or.inr ?_
    rw [h1]
    rcases h q with h2 | h2
    · rw [h2]; simp
    · rw [h2]
      have h3 := hd p q hne hsu
      simp only [Option.some.injEq, ne_eq]
      intro h4
      exact h3 (Fin.ext (by omega))

theorem quasiOK_of_allDistinct (b : Board) (t : TGrid) (hd : allDistinct t) :
    QuasiOK b t :=
  fun p q hne hsu _ => hd p q hne hsu

theorem quasi_of_valid (b : Board) (t : TGrid) (hc : Completes b t)
    (hs : isSolution t) : Quasi b t :=
  ⟨hc, quasiOK_of_allDistinct b t (allDistinct_of_isSolution t hs)⟩

theorem allDistinct_of_quasi_consistent (b : Board) (t : TGrid)
    (hq : Quasi b t) (hcons : Consistent b) : allDistinct t := by
  obtain ⟨hc, hok⟩ := hq
  intro p q hne hsu heq
  rcases h1 : b p.1 p.2 with _ | v
  · exact hok p q hne hsu (Or.inl h1) heq
  · rcases h2 : b q.1 q.2 with _ | w
    · exact hok p q hne hsu (Or.inr h2) heq
    · rcases hcons p q hne hsu with h3 | h3
      · rw [h1] at h3; cases h3
      · rw [h1, h2] at h3
        have hv := completes_some b t hc p v h1
        have hw := completes_some b t hc q w h2
        rw [hv, hw, heq] at h3
        exact h3 rfl

theorem Qset_eq_VC (b : Board) (hcons : Consistent b) : Qset b = VC b := by
  unfold Qset VC
  apply Finset.filter_congr
  intro t _
  constructor
  · intro hq
    exact ⟨hq.1, isSolution_of_allDistinct t (allDistinct_of_quasi_consistent b t hq hcons)⟩
  · intro ⟨hc, hs⟩
    exact quasi_of_valid b t hc hs

theorem completes_boardOf (t : TGrid) : Completes (boardOf t) t :=
  fun _ => Or.inr rfl

theorem boardOf_full (t : TGrid) (p : Fin 9 × Fin 9) : boardOf t p.1 p.2 ≠ none := by
  simp [boardOf]

theorem eq_boardOf_of_full (b : Board) (t : TGrid)
    (hfull : ∀ p : Fin 9 × Fin 9, b p.1 p.2 ≠ none) (h : Completes b t) :
    b = boardOf t := by
  funext r c
  rcases h (r, c) with h1 | h1
  · exact absurd h1 (hfull (r, c))
  · exact h1

theorem ne_pair (p : Fin 9 × Fin 9) (r c : Fin 9) (h : p ≠ (r, c)) :
    ¬(p.1 = r ∧ p.2 = c) :=
  fun h2 => h (Prod.ext h2.1 h2.2)

theorem setCell_ne (b : Board) (r c : Fin 9) (v : Option ℕ) (p : Fin 9 × Fin 9)
    (h : p ≠ (r, c)) : setCell b r c v p.1 p.2 = b p.1 p.2 :=
  setCell_other b r c v p.1 p.2 (ne_pair p r c h)

theorem setCell_none_elim (b : Board) (r c : Fin 9) (v : ℕ) (p : Fin 9 × Fin 9)
    (h : setCell b r c (some v) p.1 p.2 = none) :
    p ≠ (r, c) ∧ b p.1 p.2 = none := by
  by_cases hp : p = (r, c)
  · exfalso
    rw [hp] at h
    have h2 : setCell b r c (some v) r c = none := h
    rw [setCell_same] at h2
    cases h2
  · exact ⟨hp, by rw [← setCell_ne b r c (some v) p hp]; exact h⟩

/- The key branch decomposition: with `(r, c)` empty in `b`, the grids reached
by the search from `b` that put digit `d + 1` at `(r, c)` are exactly the grids
reached from `b` with `d + 1` placed, and they exist only when the placement
passes the fill-time check. -/
theorem quasi_set_iff (b : Board) (r c : Fin 9) (hb : b r c = none) (d : Fin 9)
    (t : TGrid) :
    (Quasi (setCell b r c (some (d.val + 1))) t ∧ isValid b r c (d.val + 1) = true)
      ↔ Quasi b t ∧ t r c = d := by
  constructor
  · rintro ⟨⟨hc2, hok2⟩, hv⟩
    have htrc : t r c = d := by
      rcases hc2 (r, c) with h1 | h1
      · have h1b : setCell b r c (some (d.val + 1)) r c = none := h1
        rw [setCell_same] at h1b
        cases h1b
      · have h1b : setCell b r c (some (d.val + 1)) r c = some ((t r c).val + 1) := h1
        rw [setCell_same] at h1b
        have h2 := Option.some.inj h1b
        apply Fin.ext
        omega
    have hcb : Completes b t := by
      intro p
      by_cases hp : p = (r, c)
      · rw [hp]
        exact Or.inl hb
      · rw [← setCell_ne b r c (some (d.val + 1)) p hp]
        exact hc2 p
    refine ⟨⟨hcb, ?_⟩, htrc⟩
    intro p q hne hsu hemp
    by_cases hp : p = (r, c)
    · by_cases hq : q = (r, c)
      · exact absurd (hp.trans hq.symm) hne
      · rcases hbq : b q.1 q.2 with _ | w
        · apply hok2 p q hne hsu
          right
          rw [setCell_ne b r c _ q hq]
          exact hbq
        · have hw : w = (t q.1 q.2).val + 1 := completes_some b t hcb q w hbq
          have hsu2 : sameUnit q (r, c) := by
            rw [← hp]
            exact sameUnit_symm p q hsu
          have hnv := (isValid_iff b r c (d.val + 1)).mp hv q hsu2
          intro heq
          apply hnv
          rw [hbq, hw]
          have h3 : t q.1 q.2 = d := by
            rw [← heq, hp]
            exact htrc
          rw [h3]
    · by_cases hq : q = (r, c)
      · rcases hbp : b p.1 p.2 with _ | w
        · apply hok2 p q hne hsu
          left
          rw [setCell_ne b r c _ p hp]
          exact hbp
        · have hw : w = (t p.1 p.2).val + 1 := completes_some b t hcb p w hbp
          have hsu2 : sameUnit p (r, c) := by
            rw [← hq]
            exact hsu
          have hnv := (isValid_iff b r c (d.val + 1)).mp hv p hsu2
          intro heq
          apply hnv
          rw [hbp, hw]
          have h3 : t p.1 p.2 = d := by
            rw [heq, hq]
            exact htrc
          rw [h3]
      · apply hok2 p q hne hsu
        rcases hemp with h1 | h1
        · exact Or.inl (by rw [setCell_ne b r c _ p hp]; exact h1)
        · exact Or.inr (by rw [setCell_ne b r c _ q hq]; exact h1)
  · rintro ⟨⟨hcb, hok⟩, htd⟩
    have hv : isValid b r c (d.val + 1) = true := by
      apply (isValid_iff b r c (d.val + 1)).mpr
      intro p hsu hbp
      have hpne : p ≠ (r, c) := by
        intro he
        rw [he] at hbp
        have h2 : b r c = some (d.val + 1) := hbp
        rw [hb] at h2
        cases h2
      have hv2 := completes_some b t hcb p _ hbp
      have htp : t p.1 p.2 = d := Fin.ext (by omega)
      exact hok p (r, c) hpne hsu (Or.inr hb) (htp.trans htd.symm)
    refine ⟨⟨?_, ?_⟩, hv⟩
    · intro p
      by_cases hp : p = (r, c)
      · right
        rw [hp]
        show setCell b r c (some (d.val + 1)) r c = some ((t r c).val + 1)
        rw [setCell_same, htd]
      · rw [setCell_ne b r c _ p hp]
        exact hcb p
    · intro p q hne hsu hemp
      apply hok p q hne hsu
      rcases hemp with h1 | h1
      · exact Or.inl (setCell_none_elim b r c _ p h1).2
      · exact Or.inr (setCell_none_elim b r c _ q h1).2

/- ---------------------------------------------------------------------------
Correctness of the bounded solution counter. -/

def totalize (b : Board) : TGrid :=
  fun r c => ⟨((b r c).getD 1 - 1) % 9, Nat.mod_lt _ (by omega)⟩

theorem Qset_full (b : Board) (hw : WellFormed b)
    (hfull : ∀ p : Fin 9 × Fin 9, b p.1 p.2 ≠ none) :
    Qset b = {totalize b} := by
  ext t
  simp only [Qset, Finset.mem_filter, Finset.mem_univ, true_and,
    Finset.mem_singleton]
  constructor
  · intro hq
    funext r c
    rcases hbv : b r c with _ | v
    · exact absurd hbv (hfull (r, c))
    · have hv := completes_some b t hq.1 (r, c) v hbv
      have hv2 : v = (t r c).val + 1 := hv
      have hcell : CellOK (b r c) := hw r c
      rw [hbv] at hcell
      obtain ⟨h1, h2⟩ := hcell
      apply Fin.ext
      show (t r c).val = ((b r c).getD 1 - 1) % 9
      rw [hbv]
      show (t r c).val = (v - 1) % 9
      omega
  · intro ht
    subst ht
    refine ⟨fun p => ?_, fun p q hne hsu hemp => ?_⟩
    · rcases hbv : b p.1 p.2 with _ | v
      · exact Or.inl rfl
      · right
        have hcell : CellOK (b p.1 p.2) := hw p.1 p.2
        rw [hbv] at hcell
        obtain ⟨h1, h2⟩ := hcell
        congr 1
        show v = ((b p.1 p.2).getD 1 - 1) % 9 + 1
        rw [hbv]
        show v = (v - 1) % 9 + 1
        omega
    · rcases hemp with h1 | h1
      · exact absurd h1 (hfull p)
      · exact absurd h1 (hfull q)

theorem Qset_filter_eq (b : Board) (r c : Fin 9) (hb : b r c = none) (d : Fin 9) :
    (Qset b).filter (fun t => t r c = d)
      = if isValid b r c (d.val + 1) = true
          then Qset (setCell b r c (some (d.val + 1))) else ∅ := by
  by_cases hv : isValid b r c (d.val + 1) = true
  · rw [if_pos hv]
    ext t
    simp only [Qset, Finset.mem_filter, Finset.mem_univ, true_and]
    constructor
    · intro ⟨hq, htd⟩
      exact ((quasi_set_iff b r c hb d t).mpr ⟨hq, htd⟩).1
    · intro hq
      exact (quasi_set_iff b r c hb d t).mp ⟨hq, hv⟩
  · rw [if_neg hv]
    ext t
    simp only [Qset, Finset.mem_filter, Finset.mem_univ, true_and,
      Finset.not_mem_empty, iff_false, not_and]
    intro hq htd
    exact hv ((quasi_set_iff b r c hb d t).mpr ⟨hq, htd⟩).2

theorem Qset_card_branch (b : Board) (r c : Fin 9) (hb : b r c = none) :
    (Qset b).card = ∑ d : Fin 9, (if isValid b r c (d.val + 1) = true
      then (Qset (setCell b r c (some (d.val + 1)))).card else 0) := by
  have hkey : (Qset b).card
      = ∑ d : Fin 9, ((Qset b).filter fun t => t r c = d).card :=
    Finset.card_eq_sum_card_fiberwise fun t _ => Finset.mem_univ (t r c)
  rw [hkey]
  apply Finset.sum_congr rfl
  intro d _
  rw [Qset_filter_eq b r c hb d, apply_ite Finset.card, Finset.card_empty]

theorem branch_sum_eq (b : Board) (r c : Fin 9) :
    (([1, 2, 3, 4, 5, 6, 7, 8, 9] : List ℕ).map fun num =>
        if isValid b r c num = true
          then (Qset (setCell b r c (some num))).card else 0).sum
      = ∑ d : Fin 9, (if isValid b r c (d.val + 1) = true
          then (Qset (setCell b r c (some (d.val + 1)))).card else 0) := by
  rw [Fin.sum_univ_def]
  rw [(by decide : ([1, 2, 3, 4, 5, 6, 7, 8, 9] : List ℕ)
    = (List.finRange 9).map fun d : Fin 9 => d.val + 1)]
  rw [List.map_map]
  rfl

theorem csNums_spec (f : Board → ℕ → ℕ) (b : Board) (r c : Fin 9) (limit : ℕ) :
    ∀ (nums : List ℕ) (count : ℕ),
      (∀ num ∈ nums, ∀ l, 1 ≤ l → f (setCell b r c (some num)) l
        = min l (Qset (setCell b r c (some num))).card) →
      count < limit →
      csNums f b r c limit nums count
        = min limit (count + (nums.map fun num =>
            if isValid b r c num = true
              then (Qset (setCell b r c (some num))).card else 0).sum) := by
  intro nums
  induction nums with
  | nil =>
    intro count hf hc
    simp only [csNums, List.map_nil, List.sum_nil]
    omega
  | cons num rest ih =>
    intro count hf hc
    have hfnum := hf num (List.mem_cons_self num rest)
    have hfrest : ∀ n ∈ rest, ∀ l, 1 ≤ l → f (setCell b r c (some n)) l
        = min l (Qset (setCell b r c (some n))).card :=
      fun n hn => hf n (List.mem_cons_of_mem num hn)
    by_cases hv : isValid b r c num = true
    · have hstep : csNums f b r c limit (num :: rest) count
          = (if limit ≤ count + f (setCell b r c (some num)) (limit - count)
              then count + f (setCell b r c (some num)) (limit - count)
              else csNums f b r c limit rest
                (count + f (setCell b r c (some num)) (limit - count))) := by
        rw [csNums, if_pos hv]
      have hl2 : 1 ≤ limit - count := by omega
      rw [hstep, hfnum (limit - count) hl2]
      simp only [List.map_cons, List.sum_cons, if_pos hv]
      by_cases hle : limit ≤ count + min (limit - count) (Qset (setCell b r c (some num))).card
      · rw [if_pos hle]
        omega
      · rw [if_neg hle]
        have hmin : min (limit - count) (Qset (setCell b r c (some num))).card
            = (Qset (setCell b r c (some num))).card := by omega
        rw [hmin] at hle ⊢
        rw [ih (count + (Qset (setCell b r c (some num))).card) hfrest (by omega)]
        omega
    · have hstep : csNums f b r c limit (num :: rest) count
          = csNums f b r c limit rest count := by
        rw [csNums, if_neg hv]
      rw [hstep, ih count hfrest hc]
      simp only [List.map_cons, List.sum_cons, if_neg hv]
      omega

theorem countSolutionsF_zero (b : Board) (limit : ℕ) :
    countSolutionsF 0 b limit
      = match firstEmptyCell b with | none => 1 | some _ => 0 := rfl

theorem countSolutionsF_succ (fuel : ℕ) (b : Board) (limit : ℕ) :
    countSolutionsF (fuel + 1) b limit
      = match firstEmptyCell b with
        | none => 1
        | some rc => csNums (countSolutionsF fuel) b rc.1 rc.2 limit
            [1, 2, 3, 4, 5, 6, 7, 8, 9] 0 := rfl

theorem wellFormed_setCell (b : Board) (r c : Fin 9) (v : ℕ) (hw : WellFormed b)
    (h1 : 1 ≤ v) (h2 : v ≤ 9) : WellFormed (setCell b r c (some v)) := by
  intro r2 c2
  unfold setCell
  by_cases hp : r2 = r ∧ c2 = c
  · rw [if_pos hp]
    exact ⟨h1, h2⟩
  · rw [if_neg hp]
    exact hw r2 c2

theorem countSolutionsF_spec : ∀ (fuel : ℕ) (b : Board) (limit : ℕ),
    WellFormed b → numEmpty b ≤ fuel → 1 ≤ limit →
    countSolutionsF fuel b limit = min limit (Qset b).card := by
  intro fuel
  induction fuel with
  | zero =>
    intro b limit hw hn hl
    have h0 : numEmpty b = 0 := by omega
    have hfe := firstEmptyCell_none_of_zero b h0
    have hfull := firstEmptyCell_none b hfe
    rw [countSolutionsF_zero, hfe, Qset_full b hw hfull, Finset.card_singleton]
    show (1 : ℕ) = min limit 1
    omega
  | succ fuel ih =>
    intro b limit hw hn hl
    rcases hfe : firstEmptyCell b with _ | rc
    · have hfull := firstEmptyCell_none b hfe
      rw [countSolutionsF_succ, hfe, Qset_full b hw hfull, Finset.card_singleton]
      show (1 : ℕ) = min limit 1
      omega
    · obtain ⟨r, c⟩ := rc
      have hb : b r c = none := firstEmptyCell_some b (r, c) hfe
      have hf : ∀ num ∈ ([1, 2, 3, 4, 5, 6, 7, 8, 9] : List ℕ), ∀ l, 1 ≤ l →
          countSolutionsF fuel (setCell b r c (some num)) l
            = min l (Qset (setCell b r c (some num))).card := by
        intro num hmem l hl2
        have hbounds : 1 ≤ num ∧ num ≤ 9 := by
          simp only [List.mem_cons, List.not_mem_nil, or_false] at hmem
          rcases hmem with h | h | h | h | h | h | h | h | h <;> omega
        have hne : numEmpty (setCell b r c (some num)) ≤ fuel := by
          have h3 := numEmpty_setCell b r c num hb
          omega
        exact ih (setCell b r c (some num)) l
          (wellFormed_setCell b r c num hw hbounds.1 hbounds.2) hne hl2
      rw [countSolutionsF_succ, hfe]
      show csNums (countSolutionsF fuel) b r c limit [1, 2, 3, 4, 5, 6, 7, 8, 9] 0
        = min limit (Qset b).card
      rw [csNums_spec (countSolutionsF fuel) b r c limit
        [1, 2, 3, 4, 5, 6, 7, 8, 9] 0 hf (by omega)]
      rw [Nat.zero_add, branch_sum_eq b r c, ← Qset_card_branch b r c hb]

theorem countSolutions_quasi (b : Board) (limit : ℕ) (hw : WellFormed b)
    (hl : 1 ≤ limit) :
    countSolutions b limit = min limit (Qset b).card :=
  countSolutionsF_spec 81 b limit hw (numEmpty_le b) hl

theorem countSolutions_consistent (b : Board) (limit : ℕ) (hw : WellFormed b)
    (hcons : Consistent b) (hl : 1 ≤ limit) :
    countSolutions b limit = min limit (numCompletions b) := by
  rw [countSolutions_quasi b limit hw hl]
  unfold numCompletions
  rw [← Qset_eq_VC b hcons]

/- ---------------------------------------------------------------------------
Correctness of the general solver. -/

theorem quasi_totalize (b : Board) (hw : WellFormed b)
    (hfull : ∀ p : Fin 9 × Fin 9, b p.1 p.2 ≠ none) : Quasi b (totalize b) := by
  refine ⟨fun p => ?_, fun p q hne hsu hemp => ?_⟩
  · rcases hbv : b p.1 p.2 with _ | v
    · exact Or.inl rfl
    · right
      have hcell : CellOK (b p.1 p.2) := hw p.1 p.2
      rw [hbv] at hcell
      obtain ⟨h1, h2⟩ := hcell
      congr 1
      show v = ((b p.1 p.2).getD 1 - 1) % 9 + 1
      rw [hbv]
      show v = (v - 1) % 9 + 1
      omega
  · rcases hemp with h1 | h1
    · exact absurd h1 (hfull p)
    · exact absurd h1 (hfull q)

theorem mem_digits (n : ℕ) (h1 : 1 ≤ n) (h2 : n ≤ 9) :
    n ∈ ([1, 2, 3, 4, 5, 6, 7, 8, 9] : List ℕ) := by
  simp only [List.mem_cons, List.not_mem_nil, or_false]
  omega

theorem quasi_set_iff_num (b : Board) (r c : Fin 9) (hb : b r c = none)
    (num : ℕ) (hn1 : 1 ≤ num) (hn9 : num ≤ 9) (t : TGrid) :
    (Quasi (setCell b r c (some num)) t ∧ isValid b r c num = true)
      ↔ Quasi b t ∧ (t r c).val + 1 = num := by
  have hlt : num - 1 < 9 := by omega
  have he : some ((⟨num - 1, hlt⟩ : Fin 9).val + 1) = (some num : Option ℕ) := by
    congr 1
    show num - 1 + 1 = num
    omega
  have he2 : (⟨num - 1, hlt⟩ : Fin 9).val + 1 = num := by
    show num - 1 + 1 = num
    omega
  constructor
  · intro ⟨hq, hv⟩
    rw [← he] at hq
    rw [← he2] at hv
    have h3 := (quasi_set_iff b r c hb ⟨num - 1, hlt⟩ t).mp ⟨hq, hv⟩
    refine ⟨h3.1, ?_⟩
    rw [h3.2]
    exact he2
  · intro ⟨hq, ht⟩
    have htd : t r c = ⟨num - 1, hlt⟩ := Fin.ext (by omega)
    obtain ⟨h4, h5⟩ := (quasi_set_iff b r c hb ⟨num - 1, hlt⟩ t).mpr ⟨hq, htd⟩
    constructor
    · rw [← he]
      exact h4
    · rw [← he2]
      exact h5

theorem tryNums_some (f : Board → Option Board) (b : Board) (r c : Fin 9) :
    ∀ (nums : List ℕ) (out : Board), tryNums f b r c nums = some out →
      ∃ num ∈ nums, isValid b r c num = true
        ∧ f (setCell b r c (some num)) = some out := by
  intro nums
  induction nums with
  | nil =>
    intro out h
    rw [tryNums] at h
    cases h
  | cons num rest ih =>
    intro out h
    rw [tryNums] at h
    by_cases hv : isValid b r c num = true
    · rw [if_pos hv] at h
      rcases hrec : f (setCell b r c (some num)) with _ | out2
      · rw [hrec] at h
        have h2 : tryNums f b r c rest = some out := h
        obtain ⟨n, hn, hv2, hf2⟩ := ih out h2
        exact ⟨n, List.mem_cons_of_mem num hn, hv2, hf2⟩
      · rw [hrec] at h
        have h2 : some out2 = some out := h
        exact ⟨num, List.mem_cons_self num rest, hv, by rw [hrec, Option.some.inj h2]⟩
    · rw [if_neg hv] at h
      obtain ⟨n, hn, hv2, hf2⟩ := ih out h
      exact ⟨n, List.mem_cons_of_mem num hn, hv2, hf2⟩

theorem tryNums_ne_none (f : Board → Option Board) (b : Board) (r c : Fin 9) :
    ∀ (nums : List ℕ) (num : ℕ), num ∈ nums → isValid b r c num = true →
      f (setCell b r c (some num)) ≠ none → tryNums f b r c nums ≠ none := by
  intro nums
  induction nums with
  | nil =>
    intro num hmem
    exact absurd hmem (List.not_mem_nil num)
  | cons head rest ih =>
    intro num hmem hv hf
    rw [tryNums]
    rcases List.mem_cons.mp hmem with he | hmem2
    · subst he
      rw [if_pos hv]
      rcases hrec : f (setCell b r c (some num)) with _ | out
      · exact absurd hrec hf
      · simp
    · by_cases hvh : isValid b r c head = true
      · rw [if_pos hvh]
        rcases hrec : f (setCell b r c (some head)) with _ | out
        · show tryNums f b r c rest ≠ none
          exact ih num hmem2 hv hf
        · simp
      · rw [if_neg hvh]
        exact ih num hmem2 hv hf

theorem solveF_zero (b : Board) :
    solveF 0 b = match firstEmptyCell b with
      | none => some b
      | some _ => none := rfl

theorem solveF_succ (fuel : ℕ) (b : Board) :
    solveF (fuel + 1) b = match firstEmptyCell b with
      | none => some b
      | some rc => tryNums (solveF fuel) b rc.1 rc.2 [1, 2, 3, 4, 5, 6, 7, 8, 9] := rfl

theorem solveF_sound : ∀ (fuel : ℕ) (b out : Board), solveF fuel b = some out →
    (∀ (p : Fin 9 × Fin 9) (v : ℕ), b p.1 p.2 = some v → out p.1 p.2 = some v) ∧
    (∀ p : Fin 9 × Fin 9, out p.1 p.2 ≠ none) ∧
    (WellFormed b → ∃ t : TGrid, Quasi b t ∧ out = boardOf t) := by
  intro fuel
  induction fuel with
  | zero =>
    intro b out hs
    rw [solveF_zero] at hs
    rcases hfe : firstEmptyCell b with _ | rc
    · rw [hfe] at hs
      have hs2 : some b = some out := hs
      have hbo := Option.some.inj hs2
      subst hbo
      have hfull := firstEmptyCell_none b hfe
      exact ⟨fun p v hv => hv, hfull, fun hw =>
        ⟨totalize b, quasi_totalize b hw hfull,
          eq_boardOf_of_full b (totalize b) hfull (quasi_totalize b hw hfull).1⟩⟩
    · rw [hfe] at hs
      have hs2 : (none : Option Board) = some out := hs
      cases hs2
  | succ fuel ih =>
    intro b out hs
    rw [solveF_succ] at hs
    rcases hfe : firstEmptyCell b with _ | rc
    · rw [hfe] at hs
      have hs2 : some b = some out := hs
      have hbo := Option.some.inj hs2
      subst hbo
      have hfull := firstEmptyCell_none b hfe
      exact ⟨fun p v hv => hv, hfull, fun hw =>
        ⟨totalize b, quasi_totalize b hw hfull,
          eq_boardOf_of_full b (totalize b) hfull (quasi_totalize b hw hfull).1⟩⟩
    · rw [hfe] at hs
      obtain ⟨r, c⟩ := rc
      have hb : b r c = none := firstEmptyCell_some b (r, c) hfe
      have hs2 : tryNums (solveF fuel) b r c [1, 2, 3, 4, 5, 6, 7, 8, 9] = some out := hs
      obtain ⟨num, hmem, hv, hrec⟩ := tryNums_some (solveF fuel) b r c _ out hs2
      have hbounds : 1 ≤ num ∧ num ≤ 9 := by
        simp only [List.mem_cons, List.not_mem_nil, or_false] at hmem
        rcases hmem with h | h | h | h | h | h | h | h | h <;> omega
      obtain ⟨hext, hfull, hwf⟩ := ih (setCell b r c (some num)) out hrec
      refine ⟨?_, hfull, ?_⟩
      · intro p v hv2
        have hpne : p ≠ (r, c) := by
          intro he
          rw [he] at hv2
          have h3 : b r c = some v := hv2
          rw [hb] at h3
          cases h3
        apply hext p v
        rw [setCell_ne b r c _ p hpne]
        exact hv2
      · intro hw
        obtain ⟨t, hq, hout⟩ := hwf (wellFormed_setCell b r c num hw hbounds.1 hbounds.2)
        exact ⟨t, ((quasi_set_iff_num b r c hb num hbounds.1 hbounds.2 t).mp ⟨hq, hv⟩).1, hout⟩

theorem solveF_complete : ∀ (fuel : ℕ) (b : Board), WellFormed b →
    numEmpty b ≤ fuel → (∃ t : TGrid, Quasi b t) → solveF fuel b ≠ none := by
  intro fuel
  induction fuel with
  | zero =>
    intro b hw hn ht
    have h0 : numEmpty b = 0 := by omega
    have hfe := firstEmptyCell_none_of_zero b h0
    rw [solveF_zero, hfe]
    simp
  | succ fuel ih =>
    intro b hw hn ht
    rcases hfe : firstEmptyCell b with _ | rc
    · rw [solveF_succ, hfe]
      simp
    · obtain ⟨r, c⟩ := rc
      obtain ⟨t, hq⟩ := ht
      have hb : b r c = none := firstEmptyCell_some b (r, c) hfe
      rw [solveF_succ, hfe]
      show tryNums (solveF fuel) b r c [1, 2, 3, 4, 5, 6, 7, 8, 9] ≠ none
      have hval := (t r c).isLt
      have h2 := (quasi_set_iff b r c hb (t r c) t).mpr ⟨hq, rfl⟩
      refine tryNums_ne_none (solveF fuel) b r c _ ((t r c).val + 1)
        (mem_digits ((t r c).val + 1) (by omega) (by omega)) h2.2 ?_
      apply ih (setCell b r c (some ((t r c).val + 1)))
      · exact wellFormed_setCell b r c ((t r c).val + 1) hw (by omega) (by omega)
      · have h3 := numEmpty_setCell b r c ((t r c).val + 1) hb
        omega
      · exact ⟨t, h2.1⟩

/- ---------------------------------------------------------------------------
Correctness of the randomized filler. -/

theorem fillBoardF_zero (rand : ℕ → List ℕ) (b : Board) (k : ℕ) :
    fillBoardF rand 0 b k = match firstEmptyCell b with
      | none => (b, true, k)
      | some _ => (b, false, k) := rfl

theorem fillBoardF_succ (rand : ℕ → List ℕ) (fuel : ℕ) (b : Board) (k : ℕ) :
    fillBoardF rand (fuel + 1) b k = match firstEmptyCell b with
      | none => (b, true, k)
      | some rc => fillTry (fillBoardF rand fuel) b rc.1 rc.2 (rand k) (k + 1) := rfl

theorem fillTry_sound (f : Board → ℕ → Board × Bool × ℕ) (b : Board) (r c : Fin 9) :
    ∀ (nums : List ℕ) (k : ℕ) (out : Board) (k2 : ℕ),
      fillTry f b r c nums k = (out, true, k2) →
      ∃ num ∈ nums, ∃ k3, isValid b r c num = true
        ∧ f (setCell b r c (some num)) k3 = (out, true, k2) := by
  intro nums
  induction nums with
  | nil =>
    intro k out k2 h
    rw [fillTry] at h
    have h2 : false = true := congrArg (fun x : Board × Bool × ℕ => x.2.1) h
    cases h2
  | cons num rest ih =>
    intro k out k2 h
    rw [fillTry] at h
    by_cases hv : isValid b r c num = true
    · rw [if_pos hv] at h
      rcases hrec : f (setCell b r c (some num)) k with ⟨out2, s, k3⟩
      rw [hrec] at h
      cases s
      · have h2 : fillTry f b r c rest k3 = (out, true, k2) := h
        obtain ⟨n, hn, k4, hv2, hf2⟩ := ih k3 out k2 h2
        exact ⟨n, List.mem_cons_of_mem num hn, k4, hv2, hf2⟩
      · have h2 : (out2, true, k3) = ((out, true, k2) : Board × Bool × ℕ) := h
        exact ⟨num, List.mem_cons_self num rest, k, hv, by rw [hrec, h2]⟩
    · rw [if_neg hv] at h
      obtain ⟨n, hn, k4, hv2, hf2⟩ := ih k out k2 h
      exact ⟨n, List.mem_cons_of_mem num hn, k4, hv2, hf2⟩

theorem fillTry_success (f : Board → ℕ → Board × Bool × ℕ) (b : Board) (r c : Fin 9) :
    ∀ (nums : List ℕ) (num : ℕ), num ∈ nums → isValid b r c num = true →
      (∀ k3, (f (setCell b r c (some num)) k3).2.1 = true) →
      ∀ k, (fillTry f b r c nums k).2.1 = true := by
  intro nums
  induction nums with
  | nil =>
    intro num hmem
    exact absurd hmem (List.not_mem_nil num)
  | cons head rest ih =>
    intro num hmem hv hf k
    rw [fillTry]
    rcases List.mem_cons.mp hmem with he | hmem2
    · subst he
      rw [if_pos hv]
      rcases hrec : f (setCell b r c (some num)) k with ⟨out2, s, k3⟩
      have hs := hf k
      rw [hrec] at hs
      have hs2 : s = true := hs
      subst hs2
      rfl
    · by_cases hvh : isValid b r c head = true
      · rw [if_pos hvh]
        rcases hrec : f (setCell b r c (some head)) k with ⟨out2, s, k3⟩
        cases s
        · show (fillTry f b r c rest k3).2.1 = true
          exact ih num hmem2 hv hf k3
        · rfl
      · rw [if_neg hvh]
        exact ih num hmem2 hv hf k

theorem fillBoardF_sound (rand : ℕ → List ℕ)
    (hrand : ∀ (j : ℕ) (n : ℕ), n ∈ rand j → 1 ≤ n ∧ n ≤ 9) :
    ∀ (fuel : ℕ) (b : Board) (k : ℕ) (out : Board) (k2 : ℕ),
      fillBoardF rand fuel b k = (out, true, k2) →
      (∀ (p : Fin 9 × Fin 9) (v : ℕ), b p.1 p.2 = some v → out p.1 p.2 = some v) ∧
      (∀ p : Fin 9 × Fin 9, out p.1 p.2 ≠ none) ∧
      (WellFormed b → ∃ t : TGrid, Quasi b t ∧ out = boardOf t) := by
  intro fuel
  induction fuel with
  | zero =>
    intro b k out k2 hs
    rw [fillBoardF_zero] at hs
    rcases hfe : firstEmptyCell b with _ | rc
    · rw [hfe] at hs
      have hs2 : ((b, true, k) : Board × Bool × ℕ) = (out, true, k2) := hs
      have hbo : b = out := congrArg (fun x : Board × Bool × ℕ => x.1) hs2
      subst hbo
      have hfull := firstEmptyCell_none b hfe
      exact ⟨fun p v hv => hv, hfull, fun hw =>
        ⟨totalize b, quasi_totalize b hw hfull,
          eq_boardOf_of_full b (totalize b) hfull (quasi_totalize b hw hfull).1⟩⟩
    · rw [hfe] at hs
      have hs2 : false = true := congrArg (fun x : Board × Bool × ℕ => x.2.1) hs
      cases hs2
  | succ fuel ih =>
    intro b k out k2 hs
    rw [fillBoardF_succ] at hs
    rcases hfe : firstEmptyCell b with _ | rc
    · rw [hfe] at hs
      have hs2 : ((b, true, k) : Board × Bool × ℕ) = (out, true, k2) := hs
      have hbo : b = out := congrArg (fun x : Board × Bool × ℕ => x.1) hs2
      subst hbo
      have hfull := firstEmptyCell_none b hfe
      exact ⟨fun p v hv => hv, hfull, fun hw =>
        ⟨totalize b, quasi_totalize b hw hfull,
          eq_boardOf_of_full b (totalize b) hfull (quasi_totalize b hw hfull).1⟩⟩
    · rw [hfe] at hs
      obtain ⟨r, c⟩ := rc
      have hb : b r c = none := firstEmptyCell_some b (r, c) hfe
      have hs2 : fillTry (fillBoardF rand fuel) b r c (rand k) (k + 1)
          = (out, true, k2) := hs
      obtain ⟨num, hmem, k3, hv, hrec⟩ :=
        fillTry_sound (fillBoardF rand fuel) b r c (rand k) (k + 1) out k2 hs2
      have hbounds := hrand k num hmem
      obtain ⟨hext, hfull, hwf⟩ := ih (setCell b r c (some num)) k3 out k2 hrec
      refine ⟨?_, hfull, ?_⟩
      · intro p v hv2
        have hpne : p ≠ (r, c) := by
          intro he
          rw [he] at hv2
          have h3 : b r c = some v := hv2
          rw [hb] at h3
          cases h3
        apply hext p v
        rw [setCell_ne b r c _ p hpne]
        exact hv2
      · intro hw
        obtain ⟨t, hq, hout⟩ := hwf (wellFormed_setCell b r c num hw hbounds.1 hbounds.2)
        exact ⟨t, ((quasi_set_iff_num b r c hb num hbounds.1 hbounds.2 t).mp ⟨hq, hv⟩).1, hout⟩

theorem fillBoardF_complete (rand : ℕ → List ℕ)
    (hrand : ∀ (j : ℕ) (n : ℕ), 1 ≤ n → n ≤ 9 → n ∈ rand j) :
    ∀ (fuel : ℕ) (b : Board) (k : ℕ), WellFormed b → numEmpty b ≤ fuel →
      (∃ t : TGrid, Quasi b t) → (fillBoardF rand fuel b k).2.1 = true := by
  intro fuel
  induction fuel with
  | zero =>
    intro b k hw hn ht
    have h0 : numEmpty b = 0 := by omega
    have hfe := firstEmptyCell_none_of_zero b h0
    rw [fillBoardF_zero, hfe]
  | succ fuel ih =>
    intro b k hw hn ht
    rcases hfe : firstEmptyCell b with _ | rc
    · rw [fillBoardF_succ, hfe]
    · obtain ⟨r, c⟩ := rc
      obtain ⟨t, hq⟩ := ht
      have hb : b r c = none := firstEmptyCell_some b (r, c) hfe
      rw [fillBoardF_succ, hfe]
      show (fillTry (fillBoardF rand fuel) b r c (rand k) (k + 1)).2.1 = true
      have hval := (t r c).isLt
      have h2 := (quasi_set_iff b r c hb (t r c) t).mpr ⟨hq, rfl⟩
      refine fillTry_success (fillBoardF rand fuel) b r c (rand k) ((t r c).val + 1)
        (hrand k ((t r c).val + 1) (by omega) (by omega)) h2.2 ?_ (k + 1)
      intro k3
      apply ih (setCell b r c (some ((t r c).val + 1))) k3
      · exact wellFormed_setCell b r c ((t r c).val + 1) hw (by omega) (by omega)
      · have h3 := numEmpty_setCell b r c ((t r c).val + 1) hb
        omega
      · exact ⟨t, h2.1⟩

/- A concrete valid Solution, witnessing that the empty grid is completable. -/
def baseGrid : TGrid :=
  fun r c => ⟨(3 * (r.val % 3) + r.val / 3 + c.val) % 9, Nat.mod_lt _ (by omega)⟩

theorem baseGrid_isSolution : isSolution baseGrid := by decide

theorem emptyBoard_wellFormed : WellFormed emptyBoard :=
  fun _ _ => trivial

theorem quasi_empty_iff (t : TGrid) : Quasi emptyBoard t ↔ allDistinct t := by
  constructor
  · intro hq p q hne hsu
    exact hq.2 p q hne hsu (Or.inl rfl)
  · intro hd
    exact ⟨fun p => Or.inl rfl, fun p q hne hsu _ => hd p q hne hsu⟩

/- ---------------------------------------------------------------------------
The carving loop and the generator. -/

theorem carve_cons (q : Fin 9 × Fin 9) (rest : List (Fin 9 × Fin 9))
    (target n : ℕ) (p : Board) :
    carve (q :: rest) target p n
      = if target ≤ n then p
        else if countSolutions (setCell p q.1 q.2 none) = 1
          then carve rest target (setCell p q.1 q.2 none) (n + 1)
          else carve rest target p n := by
  rw [carve]

theorem setCell_none_sub (b : Board) (r c : Fin 9) (x : Fin 9 × Fin 9) (v : ℕ)
    (h : setCell b r c none x.1 x.2 = some v) : b x.1 x.2 = some v := by
  by_cases hx : x = (r, c)
  · exfalso
    rw [hx] at h
    have h2 : setCell b r c none r c = some v := h
    rw [setCell_same] at h2
    cases h2
  · rw [← setCell_ne b r c none x hx]
    exact h

theorem mem_VC (b : Board) (t : TGrid) :
    t ∈ VC b ↔ Completes b t ∧ isSolution t := by
  unfold VC
  rw [Finset.mem_filter]
  simp only [Finset.mem_univ, true_and]

theorem VC_eq_singleton_of_card_one (b : Board) (t : TGrid)
    (hc : Completes b t) (hs : isSolution t) (hnum : (VC b).card = 1) :
    VC b = {t} := by
  obtain ⟨a, ha⟩ := Finset.card_eq_one.mp hnum
  have ha2 := ha
  simp only [VC, Finset.ext_iff, Finset.mem_filter, Finset.mem_univ, true_and,
    Finset.mem_singleton] at ha2
  have hta : t = a := (ha2 t).mp ⟨hc, hs⟩
  rw [ha, hta]

theorem VC_singleton_unique (b : Board) (t u : TGrid) (hvc : VC b = {t})
    (hc : Completes b u) (hs : isSolution u) : u = t := by
  have h2 := hvc
  simp only [VC, Finset.ext_iff, Finset.mem_filter, Finset.mem_univ, true_and,
    Finset.mem_singleton] at h2
  exact (h2 u).mp ⟨hc, hs⟩

theorem VC_singleton_isVC (b : Board) (t : TGrid) (hvc : VC b = {t}) :
    Completes b t ∧ isSolution t := by
  have h2 := hvc
  simp only [VC, Finset.ext_iff, Finset.mem_filter, Finset.mem_univ, true_and,
    Finset.mem_singleton] at h2
  exact (h2 t).mpr rfl

theorem singleton_of_card_one_mem {α : Type} [DecidableEq α] (s : Finset α)
    (a : α) (hc : s.card = 1) (ha : a ∈ s) : s = {a} := by
  obtain ⟨b, hb⟩ := Finset.card_eq_one.mp hc
  rw [hb] at ha ⊢
  rw [Finset.mem_singleton] at ha
  rw [ha]

theorem VC_boardOf (t : TGrid) (hs : isSolution t) : VC (boardOf t) = {t} := by
  ext u
  rw [mem_VC, Finset.mem_singleton]
  constructor
  · intro ⟨hc, _⟩
    funext r c
    rcases hc (r, c) with h1 | h1
    · exact absurd h1 (boardOf_full t (r, c))
    · have h2 : some ((t r c).val + 1) = some ((u r c).val + 1) := h1
      have h3 := Option.some.inj h2
      exact Fin.ext (by omega)
  · intro he
    subst he
    exact ⟨completes_boardOf u, hs⟩

theorem carve_invariant (t : TGrid) (hs : isSolution t) :
    ∀ (cells : List (Fin 9 × Fin 9)) (target n : ℕ) (p : Board),
      Completes p t → VC p = {t} →
      Completes (carve cells target p n) t ∧ VC (carve cells target p n) = {t} := by
  intro cells
  induction cells with
  | nil =>
    intro target n p hc hvc
    rw [carve]
    exact ⟨hc, hvc⟩
  | cons q rest ih =>
    intro target n p hc hvc
    rw [carve_cons]
    by_cases hbr : target ≤ n
    · rw [if_pos hbr]
      exact ⟨hc, hvc⟩
    · rw [if_neg hbr]
      by_cases hcs : countSolutions (setCell p q.1 q.2 none) = 1
      · rw [if_pos hcs]
        have htent : Completes (setCell p q.1 q.2 none) t := by
          intro x
          by_cases hx : x = q
          · left
            have hxe : x = (q.1, q.2) := hx
            rw [hxe]
            exact setCell_same p q.1 q.2 none
          · have hxe : x ≠ (q.1, q.2) := hx
            rw [setCell_ne p q.1 q.2 none x hxe]
            exact hc x
        have hwf := wellFormed_of_completes _ t htent
        have hcons := consistent_of_completes _ t htent (allDistinct_of_isSolution t hs)
        have hcount := countSolutions_consistent (setCell p q.1 q.2 none) 2 hwf hcons
          (by omega)
        rw [hcs] at hcount
        have hnum : (VC (setCell p q.1 q.2 none)).card = 1 := by
          have h4 : numCompletions (setCell p q.1 q.2 none)
              = (VC (setCell p q.1 q.2 none)).card := rfl
          omega
        have hvc2 : VC (setCell p q.1 q.2 none) = {t} :=
          VC_eq_singleton_of_card_one (setCell p q.1 q.2 none) t htent hs hnum
        exact ih target (n + 1) (setCell p q.1 q.2 none) htent hvc2
      · rw [if_neg hcs]
        exact ih target n p hc hvc

theorem carve_sub : ∀ (cells : List (Fin 9 × Fin 9)) (target n : ℕ) (p : Board)
    (x : Fin 9 × Fin 9) (v : ℕ),
    carve cells target p n x.1 x.2 = some v → p x.1 x.2 = some v := by
  intro cells
  induction cells with
  | nil =>
    intro target n p x v h
    rw [carve] at h
    exact h
  | cons q rest ih =>
    intro target n p x v h
    rw [carve_cons] at h
    by_cases hbr : target ≤ n
    · rw [if_pos hbr] at h
      exact h
    · rw [if_neg hbr] at h
      by_cases hcs : countSolutions (setCell p q.1 q.2 none) = 1
      · rw [if_pos hcs] at h
        exact setCell_none_sub p q.1 q.2 x v (ih target (n + 1) _ x v h)
      · rw [if_neg hcs] at h
        exact ih target n p x v h

theorem numFilled_setCell_none (b : Board) (r c : Fin 9) :
    numFilled b ≤ numFilled (setCell b r c none) + 1 := by
  unfold numFilled
  have key : (Finset.univ.filter
      fun p : Fin 9 × Fin 9 => setCell b r c none p.1 p.2 ≠ none)
      = (Finset.univ.filter fun p : Fin 9 × Fin 9 => b p.1 p.2 ≠ none).erase (r, c) := by
    ext x
    simp only [Finset.mem_filter, Finset.mem_univ, true_and, Finset.mem_erase, ne_eq]
    constructor
    · intro hx
      by_cases hxe : x = (r, c)
      · exfalso
        apply hx
        rw [hxe]
        exact setCell_same b r c none
      · exact ⟨hxe, by rw [← setCell_ne b r c none x hxe]; exact hx⟩
    · intro ⟨hxe, hx⟩
      rw [setCell_ne b r c none x hxe]
      exact hx
  rw [key]
  have h2 : (Finset.univ.filter fun p : Fin 9 × Fin 9 => b p.1 p.2 ≠ none).card - 1
      ≤ ((Finset.univ.filter fun p : Fin 9 × Fin 9 => b p.1 p.2 ≠ none).erase (r, c)).card :=
    Finset.pred_card_le_card_erase
  omega

theorem carve_count : ∀ (cells : List (Fin 9 × Fin 9)) (target n : ℕ) (p : Board),
    numFilled p ≤ numFilled (carve cells target p n) + (target - n) := by
  intro cells
  induction cells with
  | nil =>
    intro target n p
    rw [carve]
    omega
  | cons q rest ih =>
    intro target n p
    rw [carve_cons]
    by_cases hbr : target ≤ n
    · rw [if_pos hbr]
      omega
    · rw [if_neg hbr]
      by_cases hcs : countSolutions (setCell p q.1 q.2 none) = 1
      · rw [if_pos hcs]
        have h1 := numFilled_setCell_none p q.1 q.2
        have h2 := ih target (n + 1) (setCell p q.1 q.2 none)
        omega
      · rw [if_neg hcs]
        have h2 := ih target n p
        omega

theorem numFilled_boardOf (t : TGrid) : numFilled (boardOf t) = 81 := by
  unfold numFilled
  rw [Finset.filter_true_of_mem fun p _ => boardOf_full t p]
  simp

theorem generatePuzzle_core (difficulty : Difficulty) (rand : ℕ → List ℕ)
    (cellOrder : List (Fin 9 × Fin 9))
    (hrand : ∀ j : ℕ, (rand j).Perm [1, 2, 3, 4, 5, 6, 7, 8, 9]) :
    ∃ t : TGrid, isSolution t
      ∧ (generatePuzzle difficulty rand cellOrder).2 = boardOf t
      ∧ Completes (generatePuzzle difficulty rand cellOrder).1 t
      ∧ VC (generatePuzzle difficulty rand cellOrder).1 = {t}
      ∧ DIFFICULTY_CLUES difficulty
          ≤ numFilled (generatePuzzle difficulty rand cellOrder).1 := by
  have hr1 : ∀ (j n : ℕ), n ∈ rand j → 1 ≤ n ∧ n ≤ 9 := by
    intro j n hn
    have h2 := (hrand j).mem_iff.mp hn
    simp only [List.mem_cons, List.not_mem_nil, or_false] at h2
    rcases h2 with h | h | h | h | h | h | h | h | h <;> omega
  have hr2 : ∀ (j n : ℕ), 1 ≤ n → n ≤ 9 → n ∈ rand j := by
    intro j n h1 h2
    exact (hrand j).mem_iff.mpr (mem_digits n h1 h2)
  have hsucc := fillBoardF_complete rand hr2 81 emptyBoard 0 emptyBoard_wellFormed
    (numEmpty_le emptyBoard)
    ⟨baseGrid, (quasi_empty_iff baseGrid).mpr
      (allDistinct_of_isSolution baseGrid baseGrid_isSolution)⟩
  rcases hfb : fillBoardF rand 81 emptyBoard 0 with ⟨sol, s, k2⟩
  rw [hfb] at hsucc
  have hs2 : s = true := hsucc
  subst hs2
  obtain ⟨_, hfull, hwf⟩ := fillBoardF_sound rand hr1 81 emptyBoard 0 sol k2 hfb
  obtain ⟨t, hq, hout⟩ := hwf emptyBoard_wellFormed
  have hsol : isSolution t := isSolution_of_allDistinct t ((quasi_empty_iff t).mp hq)
  have hgen : generatePuzzle difficulty rand cellOrder
      = (carve cellOrder (81 - DIFFICULTY_CLUES difficulty) sol 0, sol) := by
    show (carve cellOrder (81 - DIFFICULTY_CLUES difficulty)
      (fillBoardF rand 81 emptyBoard 0).1 0, (fillBoardF rand 81 emptyBoard 0).1) = _
    rw [hfb]
  rw [hgen]
  have hcomp0 : Completes sol t := by
    rw [hout]
    exact completes_boardOf t
  have hvc0 : VC sol = {t} := by
    rw [hout]
    exact VC_boardOf t hsol
  have hinv := carve_invariant t hsol cellOrder (81 - DIFFICULTY_CLUES difficulty) 0
    sol hcomp0 hvc0
  have hcount := carve_count cellOrder (81 - DIFFICULTY_CLUES difficulty) 0 sol
  have hnf : numFilled sol = 81 := by
    rw [hout]
    exact numFilled_boardOf t
  have hcl : DIFFICULTY_CLUES difficulty ≤ 81 := by
    cases difficulty <;> decide
  refine ⟨t, hsol, hout, hinv.1, hinv.2, ?_⟩
  show DIFFICULTY_CLUES difficulty
    ≤ numFilled (carve cellOrder (81 - DIFFICULTY_CLUES difficulty) sol 0)
  omega

/- ---------------------------------------------------------------------------
The conflict detector. -/

theorem cellConflict_eq (b : Board) (r c : Fin 9) :
    cellConflict b (r, c) = (match b r c with
      | none => false
      | some v => !(isValidPlacement b r c v)) := rfl

theorem getConflicts_iff (b : Board) (r c : Fin 9) :
    ((r, c) ∈ getConflicts b) ↔
      b r c ≠ none ∧ ∃ p : Fin 9 × Fin 9, p ≠ (r, c) ∧ sameUnit p (r, c)
        ∧ b p.1 p.2 = b r c := by
  unfold getConflicts
  rw [Finset.mem_filter]
  simp only [Finset.mem_univ, true_and]
  rw [cellConflict_eq]
  rcases hbv : b r c with _ | v
  · simp
  · constructor
    · intro h
      have h2 : (!(isValidPlacement b r c v)) = true := h
      have h2b : isValidPlacement b r c v = false := by
        rcases h3 : isValidPlacement b r c v
        · rfl
        · rw [h3] at h2
          cases h2
      refine ⟨by simp, ?_⟩
      have h4 : ¬(isValidPlacement b r c v = true) := by
        rw [h2b]
        simp
      rw [isValidPlacement_iff] at h4
      push_neg at h4
      obtain ⟨p, hp1, hp2, hp3⟩ := h4
      exact ⟨p, hp1, hp2, hp3⟩
    · intro ⟨hfil, p, hp1, hp2, hp3⟩
      show (!(isValidPlacement b r c v)) = true
      have h4 : isValidPlacement b r c v = false := by
        rcases h3 : isValidPlacement b r c v
        · rfl
        · exact absurd hp3 ((isValidPlacement_iff b r c v).mp h3 p hp1 hp2)
      rw [h4]
      rfl

theorem getConflicts_boardOf (t : TGrid) (hs : isSolution t) :
    getConflicts (boardOf t) = ∅ := by
  ext x
  obtain ⟨r, c⟩ := x
  rw [getConflicts_iff]
  simp only [Finset.not_mem_empty, iff_false]
  intro ⟨h1, p2, hp1, hp2, hp3⟩
  have hd := allDistinct_of_isSolution t hs
  have h5 : some ((t p2.1 p2.2).val + 1) = some ((t r c).val + 1) := hp3
  have h6 := Option.some.inj h5
  have h7 : t p2.1 p2.2 = t r c := Fin.ext (by omega)
  exact hd p2 (r, c) hp1 hp2 h7

theorem getConflicts_pair (b : Board) (r c1 c2 : Fin 9) (hne : c1 ≠ c2)
    (h1 : b r c1 = some 5) (h2 : b r c2 = some 5)
    (hother : ∀ x : Fin 9 × Fin 9, x ≠ (r, c1) → x ≠ (r, c2) →
      ¬∃ p : Fin 9 × Fin 9, p ≠ x ∧ sameUnit p x
        ∧ b p.1 p.2 = b x.1 x.2 ∧ b x.1 x.2 ≠ none) :
    getConflicts b = {(r, c1), (r, c2)} := by
  ext x
  obtain ⟨xr, xc⟩ := x
  rw [getConflicts_iff]
  simp only [Finset.mem_insert, Finset.mem_singleton]
  constructor
  · intro ⟨hf, p, hp1, hp2, hp3⟩
    by_contra hcon
    push_neg at hcon
    obtain ⟨hc1, hc2⟩ := hcon
    exact hother (xr, xc) hc1 hc2 ⟨p, hp1, hp2, hp3, hf⟩
  · intro hx
    rcases hx with hx | hx
    · have hxr : xr = r := congrArg Prod.fst hx
      have hxc : xc = c1 := congrArg Prod.snd hx
      subst hxr
      subst hxc
      refine ⟨by rw [h1]; simp, (xr, c2), ?_, Or.inl rfl, by rw [h2, h1]⟩
      intro he
      exact hne (congrArg Prod.snd he).symm
    · have hxr : xr = r := congrArg Prod.fst hx
      have hxc : xc = c2 := congrArg Prod.snd hx
      subst hxr
      subst hxc
      refine ⟨by rw [h2]; simp, (xr, c1), ?_, Or.inl rfl, by rw [h1, h2]⟩
      intro he
      exact hne (congrArg Prod.snd he)

/- ---------------------------------------------------------------------------
The unsatisfiable two-threes scenario. -/

theorem two_threes_no_quasi (b : Board) (c1 c2 : Fin 9) (hne : c1 ≠ c2)
    (h1 : b 0 c1 = some 3) (h2 : b 0 c2 = some 3)
    (hrow : ∀ c : Fin 9, c ≠ c1 → c ≠ c2 → b 0 c = none)
    (hrest : ∀ r c : Fin 9, r ≠ 0 → b r c = none) :
    ∀ t : TGrid, ¬Quasi b t := by
  intro t hq
  obtain ⟨hc, hok⟩ := hq
  have ht1 : t 0 c1 = ⟨2, by omega⟩ := by
    have h3 : (3 : ℕ) = (t 0 c1).val + 1 := completes_some b t hc (0, c1) 3 h1
    apply Fin.ext
    show (t 0 c1).val = 2
    omega
  have ht2 : t 0 c2 = ⟨2, by omega⟩ := by
    have h3 : (3 : ℕ) = (t 0 c2).val + 1 := completes_some b t hc (0, c2) 3 h2
    apply Fin.ext
    show (t 0 c2).val = 2
    omega
  have hrowinj : ∀ r : Fin 9, r ≠ 0 → Function.Injective fun c => t r c := by
    intro r hr c3 c4 h34
    by_contra hnec
    exact hok (r, c3) (r, c4) (fun he => hnec (congrArg Prod.snd he)) (Or.inl rfl)
      (Or.inl (hrest r c3 hr)) h34
  have hsurj : ∀ r : Fin 9, r ≠ 0 → ∃ c : Fin 9, t r c = ⟨2, by omega⟩ := by
    intro r hr
    exact Finite.injective_iff_surjective.mp (hrowinj r hr) ⟨2, by omega⟩
  have hcol : ∀ r : Fin 9, ∃ c : Fin 9, r ≠ 0 → t r c = ⟨2, by omega⟩ := by
    intro r
    by_cases hr : r = 0
    · exact ⟨0, fun h => absurd hr h⟩
    · obtain ⟨c, hcv⟩ := hsurj r hr
      exact ⟨c, fun _ => hcv⟩
  classical
  choose col hcolspec using hcol
  have hcoldistinct : ∀ r1 r2 : Fin 9, r1 ≠ 0 → r2 ≠ 0 → r1 ≠ r2 →
      col r1 ≠ col r2 := by
    intro r1 r2 hr1 hr2 hne12 hceq
    have hv1 := hcolspec r1 hr1
    have hv2 := hcolspec r2 hr2
    apply hok (r1, col r1) (r2, col r2)
      (fun he => hne12 (congrArg Prod.fst he))
      (Or.inr (Or.inl hceq))
      (Or.inl (hrest r1 (col r1) hr1))
    rw [hv1, hv2]
  have hcolavoid : ∀ r : Fin 9, r ≠ 0 → col r ≠ c1 ∧ col r ≠ c2 := by
    intro r hr
    have hv := hcolspec r hr
    constructor
    · intro heq
      apply hok (r, col r) (0, c1)
        (fun he => hr (congrArg Prod.fst he))
        (Or.inr (Or.inl heq))
        (Or.inl (hrest r (col r) hr))
      rw [hv, ht1]
    · intro heq
      apply hok (r, col r) (0, c2)
        (fun he => hr (congrArg Prod.fst he))
        (Or.inr (Or.inl heq))
        (Or.inl (hrest r (col r) hr))
      rw [hv, ht2]
  have hsub : ∀ r ∈ Finset.univ.erase (0 : Fin 9),
      col r ∈ (Finset.univ.erase c1).erase c2 := by
    intro r hr
    rw [Finset.mem_erase] at hr
    rw [Finset.mem_erase, Finset.mem_erase]
    exact ⟨(hcolavoid r hr.1).2, (hcolavoid r hr.1).1, Finset.mem_univ _⟩
  have hinj : Set.InjOn col (Finset.univ.erase (0 : Fin 9)) := by
    intro r1 hr1 r2 hr2 heq
    rw [Finset.coe_erase, Set.mem_diff] at hr1 hr2
    by_contra hne12
    have hr1b : r1 ≠ 0 := by
      intro h
      exact hr1.2 (by rw [h]; rfl)
    have hr2b : r2 ≠ 0 := by
      intro h
      exact hr2.2 (by rw [h]; rfl)
    exact hcoldistinct r1 r2 hr1b hr2b hne12 heq
  have hcard := Finset.card_le_card_of_injOn col hsub hinj
  have hc8 : (Finset.univ.erase (0 : Fin 9)).card = 8 := by
    rw [Finset.card_erase_of_mem (Finset.mem_univ 0)]
    simp
  have hc7 : ((Finset.univ.erase c1).erase c2).card = 7 := by
    rw [Finset.card_erase_of_mem, Finset.card_erase_of_mem (Finset.mem_univ c1)]
    · simp
    · rw [Finset.mem_erase]
      exact ⟨fun h => hne h.symm, Finset.mem_univ c2⟩
  omega

/- ---------------------------------------------------------------------------
Concrete boards used as witnesses and counterexamples. -/

def fullOnes : Board := fun _ _ => some 1

def gSol : Board := boardOf baseGrid

def gTwoFives : Board := fun r c =>
  if r = 0 ∧ c = 0 then some 5 else if r = 0 ∧ c = 5 then some 5 else none

def gTwoThrees : Board := fun r c =>
  if r = 0 ∧ (c = 0 ∨ c = 1) then some 3 else none

def constDigits : ℕ → List ℕ := fun _ => [1, 2, 3, 4, 5, 6, 7, 8, 9]

theorem fullOnes_no_completion :
    ∀ t : TGrid, ¬(Completes fullOnes t ∧ isSolution t) := by
  intro t ⟨hc, hs⟩
  have h1 : (1 : ℕ) = (t 0 0).val + 1 := completes_some fullOnes t hc (0, 0) 1 rfl
  have h2 : (1 : ℕ) = (t 0 1).val + 1 := completes_some fullOnes t hc (0, 1) 1 rfl
  have hd := allDistinct_of_isSolution t hs
  have hne : ((0 : Fin 9), (0 : Fin 9)) ≠ ((0 : Fin 9), (1 : Fin 9)) := by decide
  have h3 : t 0 0 = t 0 1 := Fin.ext (by omega)
  exact hd (0, 0) (0, 1) hne (Or.inl rfl) h3

theorem fullOnes_numCompletions : numCompletions fullOnes = 0 := by
  unfold numCompletions
  rw [Finset.card_eq_zero]
  ext t
  simp only [VC, Finset.mem_filter, Finset.mem_univ, true_and, Finset.not_mem_empty,
    iff_false]
  exact fullOnes_no_completion t

theorem perm_bounds (rand : ℕ → List ℕ)
    (hrand : ∀ j : ℕ, (rand j).Perm [1, 2, 3, 4, 5, 6, 7, 8, 9]) :
    ∀ (j n : ℕ), n ∈ rand j → 1 ≤ n ∧ n ≤ 9 := by
  intro j n hn
  have h2 := (hrand j).mem_iff.mp hn
  simp only [List.mem_cons, List.not_mem_nil, or_false] at h2
  rcases h2 with h | h | h | h | h | h | h | h | h <;> omega

theorem perm_mem (rand : ℕ → List ℕ)
    (hrand : ∀ j : ℕ, (rand j).Perm [1, 2, 3, 4, 5, 6, 7, 8, 9]) :
    ∀ (j n : ℕ), 1 ≤ n → n ≤ 9 → n ∈ rand j := by
  intro j n h1 h2
  exact (hrand j).mem_iff.mpr (mem_digits n h1 h2)

/- ---------------------------------------------------------------------------
The claims. -/

/-- C1: for every difficulty tier and every outcome of the shuffles, the puzzle
grid returned by `generatePuzzle` has exactly one completion that is a valid
Solution, and that completion is the solution grid returned alongside it (so
the carving loop never keeps a removal that breaks uniqueness). -/
theorem generatePuzzle_unique_solution (difficulty : Difficulty)
    (rand : ℕ → List ℕ) (cellOrder : List (Fin 9 × Fin 9))
    (hrand : ∀ j : ℕ, (rand j).Perm [1, 2, 3, 4, 5, 6, 7, 8, 9]) :
    (∃! t : TGrid,
      Completes (generatePuzzle difficulty rand cellOrder).1 t ∧ isSolution t) ∧
    (∀ t : TGrid, Completes (generatePuzzle difficulty rand cellOrder).1 t →
      isSolution t → boardOf t = (generatePuzzle difficulty rand cellOrder).2) := by
  obtain ⟨t, hsol, hout, hcomp, hvc, _⟩ :=
    generatePuzzle_core difficulty rand cellOrder hrand
  constructor
  · refine ⟨t, ⟨hcomp, hsol⟩, ?_⟩
    intro u hu
    exact VC_singleton_unique _ t u hvc hu.1 hu.2
  · intro u hcu hsu
    rw [VC_singleton_unique _ t u hvc hcu hsu]
    exact hout.symm

/-- C1 witness: the theorem applied to the easy tier with identity shuffles and
an empty carving order. -/
theorem generatePuzzle_unique_solution_witness :
    (∃! t : TGrid,
      Completes (generatePuzzle Difficulty.easy constDigits []).1 t ∧ isSolution t) ∧
    (∀ t : TGrid, Completes (generatePuzzle Difficulty.easy constDigits []).1 t →
      isSolution t → boardOf t = (generatePuzzle Difficulty.easy constDigits []).2) :=
  generatePuzzle_unique_solution Difficulty.easy constDigits []
    (fun _ => List.Perm.refl _)

/-- C2: for every puzzle/solution pair returned by `generatePuzzle`,
`solvePuzzle` applied to the puzzle succeeds and returns a grid identical,
cell for cell, to the paired solution. -/
theorem solvePuzzle_generated (difficulty : Difficulty) (rand : ℕ → List ℕ)
    (cellOrder : List (Fin 9 × Fin 9))
    (hrand : ∀ j : ℕ, (rand j).Perm [1, 2, 3, 4, 5, 6, 7, 8, 9]) :
    solvePuzzle (generatePuzzle difficulty rand cellOrder).1
      = some (generatePuzzle difficulty rand cellOrder).2 := by
  obtain ⟨t, hsol, hout, hcomp, hvc, _⟩ :=
    generatePuzzle_core difficulty rand cellOrder hrand
  have hw := wellFormed_of_completes _ t hcomp
  have hcons := consistent_of_completes _ t hcomp (allDistinct_of_isSolution t hsol)
  have hnn := solveF_complete 81 _ hw (numEmpty_le _) ⟨t, quasi_of_valid _ t hcomp hsol⟩
  rcases hs : solvePuzzle (generatePuzzle difficulty rand cellOrder).1 with _ | out
  · exact absurd hs hnn
  · obtain ⟨_, _, hwf⟩ := solveF_sound 81 _ out hs
    obtain ⟨u, hq, hbout⟩ := hwf hw
    have hd := allDistinct_of_quasi_consistent _ u hq hcons
    have hu : u = t := VC_singleton_unique _ t u hvc hq.1 (isSolution_of_allDistinct u hd)
    rw [hbout, hu, ← hout]

/-- C2 witness: the theorem applied to the easy tier with identity shuffles and
an empty carving order. -/
theorem solvePuzzle_generated_witness :
    solvePuzzle (generatePuzzle Difficulty.easy constDigits []).1
      = some (generatePuzzle Difficulty.easy constDigits []).2 :=
  solvePuzzle_generated Difficulty.easy constDigits [] (fun _ => List.Perm.refl _)

/-- C3: for every difficulty tier, the returned puzzle has at least the tier's
nominal clue count of non-empty cells (easy 40, medium 32, hard 26, expert 22),
and every non-empty cell of the puzzle holds exactly the value of the returned
solution at the same coordinate. -/
theorem generatePuzzle_clue_bound (difficulty : Difficulty) (rand : ℕ → List ℕ)
    (cellOrder : List (Fin 9 × Fin 9))
    (hrand : ∀ j : ℕ, (rand j).Perm [1, 2, 3, 4, 5, 6, 7, 8, 9]) :
    DIFFICULTY_CLUES difficulty
        ≤ numFilled (generatePuzzle difficulty rand cellOrder).1 ∧
    ∀ (r c : Fin 9) (v : ℕ),
      (generatePuzzle difficulty rand cellOrder).1 r c = some v →
      (generatePuzzle difficulty rand cellOrder).2 r c = some v := by
  obtain ⟨t, hsol, hout, hcomp, hvc, hcount⟩ :=
    generatePuzzle_core difficulty rand cellOrder hrand
  refine ⟨hcount, ?_⟩
  intro r c v hv
  have h2 : v = (t r c).val + 1 := completes_some _ t hcomp (r, c) v hv
  rw [hout]
  show some ((t r c).val + 1) = some v
  rw [h2]

/-- C3 witness: the theorem applied to the expert tier with identity shuffles
and an empty carving order. -/
theorem generatePuzzle_clue_bound_witness :
    DIFFICULTY_CLUES Difficulty.expert
        ≤ numFilled (generatePuzzle Difficulty.expert constDigits []).1 ∧
    ∀ (r c : Fin 9) (v : ℕ),
      (generatePuzzle Difficulty.expert constDigits []).1 r c = some v →
      (generatePuzzle Difficulty.expert constDigits []).2 r c = some v :=
  generatePuzzle_clue_bound Difficulty.expert constDigits []
    (fun _ => List.Perm.refl _)

/-- C4: for every sequence of shuffle outcomes, the recursive filler started on
the all-empty grid with fuel at least the number of empty cells (the recursion
depth bound) succeeds at the root and leaves a fully filled grid. -/
theorem fillBoard_always_succeeds (rand : ℕ → List ℕ)
    (hrand : ∀ j : ℕ, (rand j).Perm [1, 2, 3, 4, 5, 6, 7, 8, 9])
    (fuel : ℕ) (hfuel : numEmpty emptyBoard ≤ fuel) (k : ℕ) :
    (fillBoardF rand fuel emptyBoard k).2.1 = true ∧
    ∀ p : Fin 9 × Fin 9, (fillBoardF rand fuel emptyBoard k).1 p.1 p.2 ≠ none := by
  have hsucc := fillBoardF_complete rand (perm_mem rand hrand) fuel emptyBoard k
    emptyBoard_wellFormed hfuel
    ⟨baseGrid, (quasi_empty_iff baseGrid).mpr
      (allDistinct_of_isSolution baseGrid baseGrid_isSolution)⟩
  refine ⟨hsucc, ?_⟩
  rcases hfb : fillBoardF rand fuel emptyBoard k with ⟨out, s, k2⟩
  rw [hfb] at hsucc
  have hs2 : s = true := hsucc
  subst hs2
  have hsound := fillBoardF_sound rand (perm_bounds rand hrand) fuel emptyBoard k
    out k2 hfb
  intro p
  exact hsound.2.1 p

/-- C4 witness: the theorem applied to identity shuffles with fuel 81. -/
theorem fillBoard_always_succeeds_witness :
    (fillBoardF constDigits 81 emptyBoard 0).2.1 = true ∧
    ∀ p : Fin 9 × Fin 9, (fillBoardF constDigits 81 emptyBoard 0).1 p.1 p.2 ≠ none :=
  fillBoard_always_succeeds constDigits (fun _ => List.Perm.refl _) 81 (by decide) 0

/-- C5 counterexample: the claim fails as stated on the completely filled
all-ones grid, which is well-formed (every cell in 1..9) yet has no valid
completion, while `countSolutions` returns 1 on it because a full grid is
reported as one solution without re-checking validity. -/
theorem countSolutions_full_invalid_counterexample :
    WellFormed fullOnes ∧
      ¬(countSolutions fullOnes 2 = min 2 (numCompletions fullOnes)) := by
  refine ⟨by decide, ?_⟩
  intro h
  rw [fullOnes_numCompletions] at h
  have h2 : countSolutions fullOnes 2 = 1 := by decide
  rw [h2] at h
  omega

/-- C5 amended: for every well-formed grid whose filled cells are free of
row/column/box duplicates, and every limit at least 1, `countSolutions`
returns the minimum of the limit and the number of distinct completions that
are valid Solutions (including the case of an already completely filled
grid). -/
theorem countSolutions_bounded_count (b : Board) (limit : ℕ)
    (hw : WellFormed b) (hcons : Consistent b) (hl : 1 ≤ limit) :
    countSolutions b limit = min limit (numCompletions b) :=
  countSolutions_consistent b limit hw hcons hl

/-- C5 witness: the amended theorem applied to the empty board with limit 2. -/
theorem countSolutions_bounded_count_witness :
    countSolutions emptyBoard 2 = min 2 (numCompletions emptyBoard) :=
  countSolutions_bounded_count emptyBoard 2 (by decide) (by decide) (by decide)

/-- C6 counterexample: the claim fails as stated on the completely filled
all-ones grid: it is well-formed and has no valid completion, yet
`solvePuzzle` does not return the failure signal on it. -/
theorem solvePuzzle_failure_iff_counterexample :
    WellFormed fullOnes ∧
      ¬((solvePuzzle fullOnes = none) ↔
        ∀ t : TGrid, ¬(Completes fullOnes t ∧ isSolution t)) := by
  refine ⟨by decide, ?_⟩
  intro h
  have h2 : solvePuzzle fullOnes = none := h.mpr fullOnes_no_completion
  have h3 : solvePuzzle fullOnes = some fullOnes := by decide
  rw [h3] at h2
  cases h2

/-- C6 amended: for every well-formed grid whose filled cells are free of
row/column/box duplicates, `solvePuzzle` returns the failure signal if and
only if the grid has no completion that is a valid Solution, and on success
it returns a fully filled grid. -/
theorem solvePuzzle_failure_iff (b : Board) (hw : WellFormed b)
    (hcons : Consistent b) :
    ((solvePuzzle b = none) ↔ ∀ t : TGrid, ¬(Completes b t ∧ isSolution t)) ∧
    (∀ s : Board, solvePuzzle b = some s → ∀ p : Fin 9 × Fin 9, s p.1 p.2 ≠ none) := by
  constructor
  · constructor
    · intro hnone t ht
      exact solveF_complete 81 b hw (numEmpty_le b)
        ⟨t, quasi_of_valid b t ht.1 ht.2⟩ hnone
    · intro hno
      rcases hs : solvePuzzle b with _ | out
      · rfl
      · exfalso
        obtain ⟨_, _, hwf⟩ := solveF_sound 81 b out hs
        obtain ⟨u, hq, _⟩ := hwf hw
        have hd := allDistinct_of_quasi_consistent b u hq hcons
        exact hno u ⟨hq.1, isSolution_of_allDistinct u hd⟩
  · intro s hs p
    exact (solveF_sound 81 b s hs).2.1 p

/-- C6 witness: the amended theorem applied to a concrete complete valid
Solution board. -/
theorem solvePuzzle_failure_iff_witness :
    ((solvePuzzle gSol = none) ↔ ∀ t : TGrid, ¬(Completes gSol t ∧ isSolution t)) ∧
    (∀ s : Board, solvePuzzle gSol = some s → ∀ p : Fin 9 × Fin 9, s p.1 p.2 ≠ none) :=
  solvePuzzle_failure_iff gSol (by decide) (by decide)

/-- C7: for every grid whose row 0 contains the value 3 in exactly two cells
and which is otherwise entirely empty, `countSolutions` returns 0 and
`solvePuzzle` returns the failure signal. -/
theorem countSolutions_two_threes (b : Board) (c1 c2 : Fin 9) (hne : c1 ≠ c2)
    (h1 : b 0 c1 = some 3) (h2 : b 0 c2 = some 3)
    (hrow : ∀ c : Fin 9, c ≠ c1 → c ≠ c2 → b 0 c = none)
    (hrest : ∀ r c : Fin 9, r ≠ 0 → b r c = none) :
    countSolutions b = 0 ∧ solvePuzzle b = none := by
  have hw : WellFormed b := by
    intro r c
    by_cases hr : r = 0
    · subst hr
      by_cases hc1 : c = c1
      · subst hc1
        rw [h1]
        exact ⟨by omega, by omega⟩
      · by_cases hc2 : c = c2
        · subst hc2
          rw [h2]
          exact ⟨by omega, by omega⟩
        · rw [hrow c hc1 hc2]
          trivial
    · rw [hrest r c hr]
      trivial
  have hnoq := two_threes_no_quasi b c1 c2 hne h1 h2 hrow hrest
  have hqe : Qset b = ∅ := by
    ext t
    simp only [Qset, Finset.mem_filter, Finset.mem_univ, true_and,
      Finset.not_mem_empty, iff_false]
    exact hnoq t
  constructor
  · have h3 := countSolutions_quasi b 2 hw (by omega)
    rw [hqe, Finset.card_empty] at h3
    rw [h3]
    decide
  · rcases hs : solvePuzzle b with _ | out
    · rfl
    · exfalso
      obtain ⟨_, _, hwf⟩ := solveF_sound 81 b out hs
      obtain ⟨u, hq, _⟩ := hwf hw
      exact hnoq u hq

/-- C7 witness: the theorem applied to the concrete grid with 3s at columns 0
and 1 of row 0. -/
theorem countSolutions_two_threes_witness :
    countSolutions gTwoThrees = 0 ∧ solvePuzzle gTwoThrees = none :=
  countSolutions_two_threes gTwoThrees 0 1 (by decide) (by decide) (by decide)
    (by decide) (by decide)

/-- C8: a coordinate is in `getConflicts` exactly when its cell is filled and
some other cell of the same row, column or box holds the same value; the
conflict set of any complete valid Solution is empty; and for a grid with two
5s in the same row and no other conflicting pair it is exactly the set of
those two coordinates. -/
theorem getConflicts_spec :
    (∀ (b : Board) (r c : Fin 9), ((r, c) ∈ getConflicts b) ↔
        b r c ≠ none ∧ ∃ p : Fin 9 × Fin 9, p ≠ (r, c) ∧ sameUnit p (r, c)
          ∧ b p.1 p.2 = b r c) ∧
    (∀ t : TGrid, isSolution t → getConflicts (boardOf t) = ∅) ∧
    (∀ (b : Board) (r c1 c2 : Fin 9), c1 ≠ c2 → b r c1 = some 5 → b r c2 = some 5 →
      (∀ x : Fin 9 × Fin 9, x ≠ (r, c1) → x ≠ (r, c2) →
        ¬∃ p : Fin 9 × Fin 9, p ≠ x ∧ sameUnit p x
          ∧ b p.1 p.2 = b x.1 x.2 ∧ b x.1 x.2 ≠ none) →
      getConflicts b = {(r, c1), (r, c2)}) :=
  ⟨getConflicts_iff, getConflicts_boardOf, getConflicts_pair⟩

/-- C8 witness: the two-5s clause applied to the concrete grid with 5s at
(0,0) and (0,5). -/
theorem getConflicts_spec_witness :
    getConflicts gTwoFives = {((0 : Fin 9), (0 : Fin 9)), ((0 : Fin 9), (5 : Fin 9))} :=
  getConflicts_spec.2.2 gTwoFives 0 0 5 (by decide) (by decide) (by decide) (by decide)

/-- C10: whenever `solvePuzzle` succeeds, the returned grid agrees with the
input at every cell that was filled in the input: the solver only assigns
empty cells, so all given clues reappear unchanged. -/
theorem solvePuzzle_preserves_clues (b s : Board) (hs : solvePuzzle b = some s)
    (r c : Fin 9) (v : ℕ) (hv : b r c = some v) : s r c = some v :=
  (solveF_sound 81 b s hs).1 (r, c) v hv

/-- C10 witness: the theorem applied to a complete valid Solution board, which
the solver returns unchanged. -/
theorem solvePuzzle_preserves_clues_witness : gSol 0 0 = some 1 :=
  solvePuzzle_preserves_clues gSol gSol (by decide) 0 0 1 (by decide)
